import Mathlib

/-!
Verification of the StandBuilder matching / filtering / merge / dedup pipeline.

The definitions below are a shallow embedding of the TypeScript source:
  * `src/app/src/lib/engine/ruleEngine.ts`  (RuleEngine, Merger)
  * `src/app/src/lib/engine/filter.ts`      (ContentFilter)
  * `src/app/src/pages/Result.tsx`          (deduplicateContent, filterSystemContent)
  * the AI advisor module                    (AIAdvisor.parseAIResponse)

JavaScript strings are modelled as Lean `String` / `List Char`; JS `Set`s and
`Map`s used only for membership are modelled as `List String` with `contains`;
in-place array mutation is modelled by explicit state passing; the floating
point similarity score is modelled exactly as a rational number.
-/

/-- JS `\s` test for a character (space, tab, CR, LF). -/
def isWsChar (c : Char) : Bool := c.isWhitespace

/-- Character of the class `[\s\-\_]` used by `normalizeString`'s second replace. -/
def isWsDashChar (c : Char) : Bool := c.isWhitespace || c == '-' || c == '_'

/-- JS `String.prototype.trim`: drop leading and trailing whitespace. -/
def jsTrimChars (l : List Char) : List Char :=
  ((l.dropWhile isWsChar).reverse.dropWhile isWsChar).reverse

/-- JS `trim` on a `String`. -/
def jsTrim (s : String) : String := String.mk (jsTrimChars s.data)

/-- Lower-case every character (JS `toLowerCase`, restricted to ASCII case). -/
def toLowerChars (l : List Char) : List Char := l.map Char.toLower

/-- Replace every maximal run of characters satisfying `p` by a single space,
the effect of JS `replace(/X+/g, ' ')` for a character class `X`. -/
def collapseRuns (p : Char → Bool) : List Char → List Char
  | [] => []
  | [c] => if p c then [' '] else [c]
  | c :: c' :: cs =>
    if p c && p c' then collapseRuns p (c' :: cs)
    else (if p c then ' ' else c) :: collapseRuns p (c' :: cs)

/-- The `trim`, then `replace(/\s+/g, ' ')`, then `replace(/[\s\-\_]+/g, ' ')`:
the shared tail of both `normalizeString` implementations. -/
def normalizeChars (l : List Char) : List Char :=
  collapseRuns isWsDashChar (collapseRuns isWsChar (jsTrimChars l))

/-- Does `startOf` occur at the head of `l`? (helper for JS `includes`). -/
def charsStartWith : List Char → List Char → Bool
  | [], _ => true
  | _ :: _, [] => false
  | a :: as, b :: bs => a == b && charsStartWith as bs

/-- Does `needle` occur as a contiguous substring of `hay`? (JS `includes`). -/
def charsContain (hay needle : List Char) : Bool :=
  charsStartWith needle hay ||
    match hay with
    | [] => false
    | _ :: rest => charsContain rest needle

/-- JS `a.includes(b)` on strings. -/
def strIncludes (a b : String) : Bool := charsContain a.data b.data

/-- Code-point lexicographic comparison of char lists (string sort order). -/
def charsLe : List Char → List Char → Bool
  | [], _ => true
  | _ :: _, [] => false
  | a :: as, b :: bs =>
    if a.toNat < b.toNat then true
    else if b.toNat < a.toNat then false
    else charsLe as bs

/-- String order used to model `localeCompare`-based ascending id sorting. -/
def strLe (a b : String) : Bool := charsLe a.data b.data

/-- JS `split(sep)` on a character separator: keeps empty fragments. -/
def splitCharsAux (sep : Char) : List Char → List Char → List (List Char)
  | [], acc => [acc.reverse]
  | x :: xs, acc =>
    if x == sep then acc.reverse :: splitCharsAux sep xs []
    else splitCharsAux sep xs (x :: acc)

/-- Split a char list at every occurrence of `sep` (JS `String.split`). -/
def splitChars (sep : Char) (l : List Char) : List (List Char) := splitCharsAux sep l []

/-- Maximal runs of non-separator characters (JS `split(/[...]+/)` with empty
fragments removed; the callers filter empties out anyway). -/
def splitRunsAux (sep : Char → Bool) : List Char → List Char → List (List Char)
  | [], acc => if acc.isEmpty then [] else [acc.reverse]
  | x :: xs, acc =>
    if sep x then
      (if acc.isEmpty then splitRunsAux sep xs [] else acc.reverse :: splitRunsAux sep xs [])
    else splitRunsAux sep xs (x :: acc)

/-- Split into maximal non-separator runs. -/
def splitRuns (sep : Char → Bool) (l : List Char) : List (List Char) := splitRunsAux sep l []

/-- Replace the first occurrence of `pat` in `s` by nothing
(JS `s.replace(pat, '')` with a string pattern). -/
def charsReplaceFirst : List Char → List Char → List Char
  | [], _ => []
  | s@(c :: cs), pat =>
    if charsStartWith pat s then s.drop pat.length
    else c :: charsReplaceFirst cs pat

/-- JS `s.replace(pat, '')` on strings (empty pattern: identity, as in JS
the empty string is inserted at position 0). -/
def strReplaceFirst (s pat : String) : String :=
  if pat.data.isEmpty then s else String.mk (charsReplaceFirst s.data pat.data)

/-- Hexadecimal digit for JSON `\u00XX` escapes. -/
def hexDigit (n : Nat) : Char :=
  if n < 10 then Char.ofNat (48 + n) else Char.ofNat (87 + n)

/-- JSON escaping of a single character (`JSON.stringify` string escapes). -/
def jsonEscChar (c : Char) : List Char :=
  if c == '"' then ['\\', '"']
  else if c == '\\' then ['\\', '\\']
  else if c == '\n' then ['\\', 'n']
  else if c == '\r' then ['\\', 'r']
  else if c == '\t' then ['\\', 't']
  else if c.val < 32 then
    ['\\', 'u', '0', '0', hexDigit (c.toNat / 16), hexDigit (c.toNat % 16)]
  else [c]

/-- The `JSON.stringify` of a string value. -/
def jsonStr (s : String) : String :=
  String.mk ('"' :: (s.data.flatMap jsonEscChar) ++ ['"'])

/-- Join a list of strings with `','` (JS `join(',')`). -/
def joinComma : List String → String
  | [] => ""
  | [s] => s
  | s :: rest => s ++ "," ++ joinComma rest

/- ========================= data model ========================= -/

/-- Provenance of a `MatchResult` (`'rule' | 'ai' | 'manual'`). -/
inductive MatchSource where
  | rule
  | ai
  | manual
deriving DecidableEq, Repr

/-- The `MatchResult` of `ruleEngine.ts`. -/
structure MatchResult where
  standard_id : String
  source : MatchSource
  rule_id : Option String := none
  reason : Option String := none
deriving DecidableEq, Repr

/-- Modelled from the spec: `StandardItem` of the absent `loader.ts`
(§3 data model: id, name, type-category, industries, project types,
priority, description, source label). Only `standard_id` and
`standard_type` are consumed by the code under verification. -/
structure StandardItem where
  standard_id : String
  standard_name : String := ""
  standard_type : String := ""
  industry : List String := []
  project_type : List String := []
  stdPriority : String := ""
  description : String := ""
  sourceLabel : String := ""
deriving DecidableEq, Repr

/-- Modelled from the spec: `RuleItem` of the absent `loader.ts`
(§3 data model: id, applicable industries, applicable project types,
included standard ids), with the field names used by `ruleEngine.ts`. -/
structure RuleItem where
  rule_id : String
  industry : List String := []
  project_type : List String := []
  include_standard_ids : List String := []
deriving DecidableEq, Repr

/-- The `RuleEngineInput` of `ruleEngine.ts`. -/
structure RuleEngineInput where
  industries : List String
  projectTypes : List String
  modules : Option (List String) := none
deriving DecidableEq, Repr

/- ========================= RuleEngine ========================= -/

/-- The `RuleEngine.normalizeString`: lower-case, trim, collapse whitespace,
collapse whitespace/hyphen/underscore runs. -/
def ruleNormalize (s : String) : String :=
  String.mk (normalizeChars (toLowerChars s.data))

/-- The `RuleEngine.doesRuleMatch`: each axis matches when the rule's list is
empty or intersects the input's list under normalized equality. -/
def doesRuleMatch (rule : RuleItem) (input : RuleEngineInput) : Bool :=
  (rule.industry.isEmpty ||
    rule.industry.any fun ri =>
      input.industries.any fun ii => ruleNormalize ri == ruleNormalize ii) &&
  (rule.project_type.isEmpty ||
    rule.project_type.any fun rt =>
      input.projectTypes.any fun it => ruleNormalize rt == ruleNormalize it)

/-- The `MatchResult` pushed by `matchRules` for one included standard id. -/
def mkRuleResult (rule : RuleItem) (sid : String) : MatchResult :=
  { standard_id := sid
    source := .rule
    rule_id := some rule.rule_id
    reason := some ("匹配规则 " ++ rule.rule_id) }

/-- Inner `forEach` of `matchRules` over one matching rule's
`include_standard_ids`, threading the pass-wide seen-id set. -/
def emitIncluded (rule : RuleItem) : List String → List String → List MatchResult × List String
  | [], seen => ([], seen)
  | sid :: sids, seen =>
    if seen.contains sid then emitIncluded rule sids seen
    else
      let rest := emitIncluded rule sids (sid :: seen)
      (mkRuleResult rule sid :: rest.1, rest.2)

/-- Outer `forEach` of `matchRules` over the rule list. -/
def matchRulesGo (input : RuleEngineInput) : List RuleItem → List String → List MatchResult
  | [], _ => []
  | r :: rs, seen =>
    if doesRuleMatch r input then
      let emitted := emitIncluded r r.include_standard_ids seen
      emitted.1 ++ matchRulesGo input rs emitted.2
    else matchRulesGo input rs seen

/-- The `RuleEngine.matchRules`: emit one rule-sourced `MatchResult` per included
standard id of each matching rule, first-seen id winning across the pass. -/
def matchRules (rules : List RuleItem) (input : RuleEngineInput) : List MatchResult :=
  matchRulesGo input rules []

/- ========================= Merger ========================= -/

/-- The `MergerOptions` with the constructor's defaults. -/
structure MergerOptions where
  prioritizeRules : Bool := true
  deduplicate : Bool := true
  includeSources : Bool := true
deriving DecidableEq, Repr

/-- The defaulted options of `new Merger({}, standards)`. -/
def defaultMergerOptions : MergerOptions := {}

/-- The `MergerInput` of `ruleEngine.ts` (manual results optional). -/
structure MergerInput where
  ruleResults : List MatchResult
  aiResults : List MatchResult
  manualResults : Option (List MatchResult) := none
deriving DecidableEq, Repr

/-- The priority table `{rule: 3, ai: 2, manual: 1}`. -/
def srcPriority : MatchSource → Nat
  | .rule => 3
  | .ai => 2
  | .manual => 1

/-- The `findIndex` on the kept list followed by the in-place overwrite
`uniqueResults[existingIndex] = result` guarded by the strict priority test. -/
def replaceIfHigher (result : MatchResult) : List MatchResult → List MatchResult
  | [] => []
  | u :: us =>
    if u.standard_id == result.standard_id then
      if srcPriority u.source < srcPriority result.source then result :: us else u :: us
    else u :: replaceIfHigher result us

/-- One step of `Merger.deduplicateResults` over the running
`(uniqueResults, seenStandardIds)` state. -/
def dedupResStep (prioritizeRules : Bool) (st : List MatchResult × List String)
    (result : MatchResult) : List MatchResult × List String :=
  if st.2.contains result.standard_id then
    (if prioritizeRules then replaceIfHigher result st.1 else st.1, st.2)
  else (st.1 ++ [result], result.standard_id :: st.2)

/-- The `Merger.deduplicateResults`. -/
def deduplicateResults (prioritizeRules : Bool) (results : List MatchResult) : List MatchResult :=
  (results.foldl (dedupResStep prioritizeRules) ([], [])).1

/-- The comparator of `Merger.sortResults` as a total relation: descending
source priority first, then ascending standard id. -/
def resultLe (a b : MatchResult) : Bool :=
  (srcPriority b.source < srcPriority a.source) ||
    (srcPriority a.source == srcPriority b.source && strLe a.standard_id b.standard_id)

/-- The comparator as a decidable relation: `a` sorts no later than `b`. -/
def resultOrder (a b : MatchResult) : Prop := resultLe a b = true

instance : DecidableRel resultOrder := fun a b =>
  inferInstanceAs (Decidable (resultLe a b = true))

/-- The `Merger.sortResults`, modelling `Array.sort` (stable per the ECMAScript
specification) by stable insertion sort under the comparator. -/
def sortResults (l : List MatchResult) : List MatchResult := List.insertionSort resultOrder l

/-- The `Merger.mergeResults`: concatenate rule, ai, manual results, deduplicate,
sort, and join each survivor with its catalog `StandardItem` when present. -/
def mergeResults (opts : MergerOptions) (standards : List StandardItem)
    (input : MergerInput) : List (MatchResult × Option StandardItem) :=
  let all := input.ruleResults ++ input.aiResults ++ input.manualResults.getD []
  let deduped := if opts.deduplicate then deduplicateResults opts.prioritizeRules all else all
  let sorted := if opts.prioritizeRules then sortResults deduped else deduped
  sorted.map fun r => (r, standards.find? fun s => s.standard_id == r.standard_id)

/- ============== Merger: specification-side algorithms ============== -/

/-- Specification wording of the deduplication policy: the first-seen entry
is kept unless a later entry has strictly higher priority, which replaces it. -/
def keepBestAux (cur : MatchResult) : List MatchResult → MatchResult
  | [] => cur
  | x :: xs =>
    keepBestAux (if srcPriority cur.source < srcPriority x.source then x else cur) xs

/-- The entry the specification's policy keeps among all candidates for one id. -/
def keepBest? : List MatchResult → Option MatchResult
  | [] => none
  | x :: xs => some (keepBestAux x xs)

/-- One step of first-occurrence-per-id deduplication. -/
def firstDedupStep (st : List MatchResult × List String) (x : MatchResult) :
    List MatchResult × List String :=
  if st.2.contains x.standard_id then st
  else (st.1 ++ [x], x.standard_id :: st.2)

/-- First-occurrence-per-id deduplication, the simpler algorithm of the
refinement claim. -/
def firstDedup (results : List MatchResult) : List MatchResult :=
  (results.foldl firstDedupStep ([], [])).1

/-- Running best-seen entry for one id, folded over that id's candidates
in concatenation order. -/
def foldBest : Option MatchResult → List MatchResult → Option MatchResult
  | acc, [] => acc
  | none, x :: xs => foldBest (some x) xs
  | some u, x :: xs =>
    foldBest (some (if srcPriority u.source < srcPriority x.source then x else u)) xs

/-- The simpler merge of the refinement claim: first-occurrence dedup of the
concatenation, then the same sort and catalog join. -/
def mergeSimple (standards : List StandardItem) (input : MergerInput) :
    List (MatchResult × Option StandardItem) :=
  (sortResults (firstDedup
      (input.ruleResults ++ input.aiResults ++ input.manualResults.getD []))).map
    fun r => (r, standards.find? fun s => s.standard_id == r.standard_id)

/- ========================= ContentFilter ========================= -/

/-- The `ContentFilterInput` of `filter.ts`. -/
structure ContentFilterInput where
  industries : List String
  projectTypes : List String
  modules : Option (List String) := none
deriving DecidableEq, Repr

/-- The `FilterOptions` with the constructor's defaults. -/
structure FilterOptions where
  caseSensitive : Bool := false
  exactMatch : Bool := false
  fuzzyMatchThreshold : ℚ := 7 / 10
deriving DecidableEq, Repr

/-- The defaulted options of `new ContentFilter()`. -/
def defaultFilterOptions : FilterOptions := {}

/-- The `ContentFilter.normalizeString` (lower-casing subject to `caseSensitive`). -/
def cfNormalize (caseSensitive : Bool) (s : String) : String :=
  String.mk (normalizeChars (if caseSensitive then s.data else toLowerChars s.data))

/-- The Levenshtein recurrence filled by `calculateSimilarity`'s DP matrix
(insertion, deletion, substitution at unit cost). -/
def levDist : List Char → List Char → Nat
  | [], bs => bs.length
  | a :: as, [] => (a :: as).length
  | a :: as, b :: bs =>
    if a == b then levDist as bs
    else min (min (levDist as bs) (levDist (a :: as) bs)) (levDist as (b :: bs)) + 1
termination_by s1 s2 => s1.length + s2.length
decreasing_by all_goals simp +arith [List.length]

/-- The `ContentFilter.calculateSimilarity`: `1 - distance / maxLength`,
`1` when both strings are empty. -/
def calculateSimilarity (s1 s2 : List Char) : ℚ :=
  let maxLength := max s1.length s2.length
  if maxLength = 0 then 1 else 1 - (levDist s1 s2 : ℚ) / (maxLength : ℚ)

/-- The `ContentFilter.doesValueMatch`: some filter is contained in the
normalized value or fuzzy-similar to it above the threshold. -/
def doesValueMatch (opts : FilterOptions) (value : String) (filters : List String) : Bool :=
  let nv := cfNormalize opts.caseSensitive value
  filters.any fun f =>
    let nf := cfNormalize opts.caseSensitive f
    if opts.exactMatch then nv == nf
    else strIncludes nv nf ||
      decide (calculateSimilarity nv.data nf.data ≥ opts.fuzzyMatchThreshold)

/-- The `ContentFilter.findRelevantColumn`: first key whose normalized form
contains some normalized keyword. -/
def findRelevantColumn (opts : FilterOptions) (keys keywords : List String) : Option String :=
  keys.find? fun key =>
    keywords.any fun kw =>
      strIncludes (cfNormalize opts.caseSensitive key) (cfNormalize opts.caseSensitive kw)

/-- The industry-axis column keywords hard-coded in `filterContent`. -/
def cfIndustryKeywords : List String := ["业态", "产业", "行业", "项目类型", "适用范围"]

/-- The project-type-axis column keywords hard-coded in `filterContent`. -/
def cfTypeKeywords : List String := ["项目类型", "工程类型", "类型", "新建", "改扩建"]

/-- A tabular row: ordered column-key / stringified-value pairs. -/
abbrev TsRow : Type := List (String × String)

/-- The `String(row[key] || "")`: the row's value at a key, `""` when absent. -/
def rowGet (row : TsRow) (key : String) : String :=
  match (List.find? (fun p => p.1 == key) row) with
  | some p => p.2
  | none => ""

/-- Row predicate used by `filterContent` (early-return translated to a
conjunction): each located axis passes when its cell is blank or matches. -/
def cfRowPasses (opts : FilterOptions) (industryKey projectTypeKey : Option String)
    (filters : List String) (row : TsRow) : Bool :=
  (match industryKey with
   | some k => rowGet row k == "" || doesValueMatch opts (rowGet row k) filters
   | none => true) &&
  (match projectTypeKey with
   | some k => rowGet row k == "" || doesValueMatch opts (rowGet row k) filters
   | none => true)

/-- The `ContentFilter.filterContent`: locate at most one column per axis and keep
rows whose located cells are blank or match the combined filter list. -/
def filterContent (opts : FilterOptions) (content : List TsRow) (keys : List String)
    (input : ContentFilterInput) : List TsRow :=
  if input.industries.isEmpty && input.projectTypes.isEmpty then content
  else
    let industryKey := findRelevantColumn opts keys cfIndustryKeywords
    let projectTypeKey := findRelevantColumn opts keys cfTypeKeywords
    if industryKey.isNone && projectTypeKey.isNone then content
    else
      let filters := input.industries ++ input.projectTypes
      content.filter (cfRowPasses opts industryKey projectTypeKey filters)

/- =================== Result.tsx: dedup and inline filter =================== -/

/-- Join a list of strings with `'|'` (JS `join('|')`). -/
def joinBar : List String → String
  | [] => ""
  | [s] => s
  | s :: rest => s ++ "|" ++ joinBar rest

/-- The content signature of `deduplicateContent`:
`Object.values(row).map(v => String(v).trim()).join('|')`. -/
def rowSig (row : TsRow) : String := joinBar (row.map fun p => jsTrim p.2)

/-- The seen-signature recursion realised by `deduplicateContent`'s
`filter` over the mutable `uniqueMap`. -/
def dedupContentGo (seen : List String) : List TsRow → List TsRow
  | [] => []
  | r :: rest =>
    if seen.contains (rowSig r) then dedupContentGo seen rest
    else r :: dedupContentGo (rowSig r :: seen) rest

/-- The `deduplicateContent` of `Result.tsx`: first-occurrence-wins dedup keyed by
content signature. -/
def deduplicateContent (rows : List TsRow) : List TsRow := dedupContentGo [] rows

/-- The `GenerationConfig` of `GenerateConfig.tsx`. -/
structure GenerationConfig where
  industries : List String
  projectTypes : List String
  modules : List String := []
  useAI : Bool := false
  specialRequirements : Option String := none
deriving DecidableEq, Repr

/-- Industry-axis column keywords of `filterSystemContent`. -/
def rscIndustryKeywords : List String :=
  ["CateChoose", "ChildCate", "LibraryName", "TargetCh", "业态", "产业", "适用范围"]

/-- Project-type-axis column keywords of `filterSystemContent`. -/
def rscTypeKeywords : List String := ["CateName", "项目类型"]

/-- Universal-marker keywords of `filterSystemContent`. -/
def universalKeywords : List String := ["通用", "全", "All", "General", "Common"]

/-- The located industry columns: keys containing some industry keyword. -/
def industryColsOf (keys : List String) : List String :=
  keys.filter fun k => rscIndustryKeywords.any fun kw => strIncludes k kw

/-- The located project-type columns: keys containing some type keyword. -/
def typeColsOf (keys : List String) : List String :=
  keys.filter fun k => rscTypeKeywords.any fun kw => strIncludes k kw

/-- Axis test shared by the industry and type checks of `filterSystemContent`:
pass when unconstrained, all cells blank, some cell universal, or some cell
containing a selected value. -/
def rscAxisMatch (selected : List String) (cols : List String) (row : TsRow) : Bool :=
  if selected.length > 0 && cols.length > 0 then
    let vals := cols.map fun col => jsTrim (rowGet row col)
    if vals.any fun v => !v.data.isEmpty then
      if vals.any (fun v => universalKeywords.any fun u => strIncludes v u) then true
      else selected.any fun sel => vals.any fun rv => strIncludes rv sel
    else true
  else true

/-- The stop-word list of the special-requirements keyword extraction. -/
def rscStopWords : List String :=
  ["我", "我们", "只需要", "只", "要", "想", "查看", "显示", "和", "与", "的", "内容",
   "相关", "数据", "体系", "标准", "模块", "包含", "包括", "只有", "仅", "等"]

/-- Separator class of the keyword split `/[,，、\s]+/`. -/
def rscSepChar (c : Char) : Bool := c == ',' || c == '，' || c == '、' || isWsChar c

/-- Strip each stop word (first occurrence) from a token. -/
def stripStopWords (token : String) : String :=
  rscStopWords.foldl strReplaceFirst token

/-- The `JSON.stringify(row)` for a flat string-valued row. -/
def jsonStringifyRow (row : TsRow) : String :=
  "\x7b" ++ joinComma (row.map fun p => jsonStr p.1 ++ ":" ++ jsonStr p.2) ++ "\x7d"

/-- Lower-case a string (JS `toLowerCase`, ASCII case). -/
def strToLower (s : String) : String := String.mk (toLowerChars s.data)

/-- The special-requirements keyword check of `filterSystemContent`. -/
def rscRequirementMatch (config : GenerationConfig) (row : TsRow) : Bool :=
  if config.useAI then
    match config.specialRequirements with
    | none => true
    | some sr =>
      if sr.data.isEmpty then true
      else if (jsTrim sr).data.isEmpty then true
      else
        let keywords := ((splitRuns rscSepChar sr.data).map
            fun t => stripStopWords (String.mk t)).filter fun k => !k.data.isEmpty
        if keywords.length > 0 then
          let rowString := strToLower (jsonStringifyRow row)
          keywords.any fun kw => strIncludes rowString (strToLower kw)
        else true
  else true

/-- The `filterSystemContent` of `Result.tsx`: per-axis scoped filtering with
universal markers and blank-as-universal cells, then signature dedup. -/
def filterSystemContent (content : List TsRow) (keys : List String)
    (config : GenerationConfig) : List TsRow :=
  if config.industries.isEmpty && config.projectTypes.isEmpty then
    deduplicateContent content
  else
    deduplicateContent (content.filter fun row =>
      rscAxisMatch config.industries (industryColsOf keys) row &&
      rscAxisMatch config.projectTypes (typeColsOf keys) row &&
      rscRequirementMatch config row)

/- ========================= AIAdvisor ========================= -/

/-- Character class `[A-Z0-9\-]` of the response-line pattern. -/
def isIdChar (c : Char) : Bool :=
  ('A' ≤ c && c ≤ 'Z') || ('0' ≤ c && c ≤ '9') || c == '-'

/-- Backtracking tail of the line pattern: when everything after the colon is
whitespace, `\s*` gives one character back to `(.+)`, exactly as the regex
engine does, so the reason capture is the line's last (whitespace) character. -/
def parseBacktrack (idPart : List Char) : Option Char → Option (List Char × List Char)
  | some ch => some (idPart, [ch])
  | none => none

/-- The `\s*(.+)$` part of the line pattern, applied after the colon. -/
def parseAfterColon (idPart rest : List Char) : Option (List Char × List Char) :=
  if (rest.dropWhile isWsChar).isEmpty then parseBacktrack idPart rest.getLast?
  else some (idPart, rest.dropWhile isWsChar)

/-- The `:` of the line pattern, expected after the id capture and optional
whitespace. -/
def parseColon (idPart : List Char) : List Char → Option (List Char × List Char)
  | [] => none
  | ch :: rest => if ch = ':' then parseAfterColon idPart rest else none

/-- Deterministic matcher for `^([A-Z0-9\-]+)\s*:\s*(.+)$` on one line,
returning the two captures. -/
def parseLineChars (l : List Char) : Option (List Char × List Char) :=
  if (l.takeWhile isIdChar).isEmpty then none
  else parseColon (l.takeWhile isIdChar) ((l.dropWhile isIdChar).dropWhile isWsChar)

/-- The loop body of `parseAIResponse` for one line: trim it, skip it when
blank, match it against the pattern, and keep the candidate only when the
captured id exists in the `StandardItem` catalog. -/
def aiCandidate (standards : List StandardItem) :
    Option (List Char × List Char) → List MatchResult
  | none => []
  | some (idPart, reasonPart) =>
    if standards.any (fun s => s.standard_id == String.mk idPart) then
      [{ standard_id := String.mk idPart
         source := .ai
         rule_id := none
         reason := some (String.mk reasonPart) }]
    else []

/-- One line of `parseAIResponse`: trim, skip blank lines, pattern-match and
keep the candidate only when its id exists in the catalog. -/
def aiLineResults (standards : List StandardItem) (line : List Char) : List MatchResult :=
  if (jsTrimChars line).isEmpty then []
  else aiCandidate standards (parseLineChars (jsTrimChars line))

/-- The `AIAdvisor.parseAIResponse`: split into lines, trim, keep pattern matches
whose captured id exists in the `StandardItem` catalog, tag them `ai`. -/
def parseAIResponse (response : String) (standards : List StandardItem) : List MatchResult :=
  (splitChars '\n' response.data).flatMap (aiLineResults standards)

/- ===================== theorems: groundwork ===================== -/

lemma contains_iff_mem (l : List String) (s : String) : l.contains s = true ↔ s ∈ l :=
  ⟨List.mem_of_elem_eq_true, List.elem_eq_true_of_mem⟩

lemma dedupContentGo_nil (seen : List String) : dedupContentGo seen [] = [] := rfl

lemma dedupContentGo_cons (seen : List String) (r : TsRow) (rest : List TsRow) :
    dedupContentGo seen (r :: rest) =
      if seen.contains (rowSig r) then dedupContentGo seen rest
      else r :: dedupContentGo (rowSig r :: seen) rest := rfl

/- ===================== Claim C4 ===================== -/

/-- Claim C4: a rule with empty industry and project-type lists matches every
profile; in general `doesRuleMatch` holds exactly when each axis is empty or
intersects the profile's values under normalized-string equality, the two
axes evaluated independently. -/
theorem c4_rule_wildcard (rule : RuleItem) (input : RuleEngineInput) :
    (rule.industry = [] ∧ rule.project_type = [] → doesRuleMatch rule input = true) ∧
    (doesRuleMatch rule input = true ↔
      (rule.industry = [] ∨ ∃ ri ∈ rule.industry, ∃ ii ∈ input.industries,
        ruleNormalize ri = ruleNormalize ii) ∧
      (rule.project_type = [] ∨ ∃ rt ∈ rule.project_type, ∃ it ∈ input.projectTypes,
        ruleNormalize rt = ruleNormalize it)) := by
  constructor
  · rintro ⟨h1, h2⟩
    simp [doesRuleMatch, h1, h2]
  · simp [doesRuleMatch, List.isEmpty_iff, List.any_eq_true, Bool.or_eq_true,
      Bool.and_eq_true, beq_iff_eq]

/-- Witness for C4 at a concrete wildcard rule and nonempty profile. -/
theorem c4_rule_wildcard_witness :
    doesRuleMatch { rule_id := "R0" } { industries := ["住宅"], projectTypes := ["新建工程"] } = true :=
  (c4_rule_wildcard { rule_id := "R0" }
    { industries := ["住宅"], projectTypes := ["新建工程"] }).1 ⟨rfl, rfl⟩

/- ===================== Claim C6 ===================== -/

/-- Claim C6: with an empty-profile input the content filter returns its
input unchanged, and likewise when no industry-like and no project-type-like
column is located among the keys (fail-open). -/
theorem c6_filter_identity (opts : FilterOptions) (content : List TsRow)
    (keys : List String) (input : ContentFilterInput) :
    (input.industries = [] → input.projectTypes = [] →
      filterContent opts content keys input = content) ∧
    (findRelevantColumn opts keys cfIndustryKeywords = none →
      findRelevantColumn opts keys cfTypeKeywords = none →
      filterContent opts content keys input = content) := by
  constructor
  · intro h1 h2
    simp [filterContent, h1, h2]
  · intro h1 h2
    unfold filterContent
    split
    · rfl
    · simp [h1, h2]

/-- Witness for C6 at a concrete row list with an empty profile. -/
theorem c6_filter_identity_witness :
    filterContent defaultFilterOptions [[("名称", "测试")]] ["名称"]
      { industries := [], projectTypes := [] } = [[("名称", "测试")]] :=
  (c6_filter_identity defaultFilterOptions [[("名称", "测试")]] ["名称"]
    { industries := [], projectTypes := [] }).1 rfl rfl

/- ===================== Claim C7 ===================== -/

lemma dedupContentGo_sublist (seen : List String) (rows : List TsRow) :
    (dedupContentGo seen rows).Sublist rows := by
  induction rows generalizing seen with
  | nil => simp [dedupContentGo_nil]
  | cons r rest ih =>
    rw [dedupContentGo_cons]
    split
    · exact (ih seen).cons r
    · exact (ih (rowSig r :: seen)).cons₂ r

lemma mem_dedupContentGo (seen : List String) (rows : List TsRow) (r : TsRow) :
    r ∈ dedupContentGo seen rows ↔
      rowSig r ∉ seen ∧
        ∃ pre post, rows = pre ++ r :: post ∧ ∀ p ∈ pre, rowSig p ≠ rowSig r := by
  induction rows generalizing seen with
  | nil =>
    rw [dedupContentGo_nil]
    constructor
    · intro h
      exact absurd h (List.not_mem_nil r)
    · rintro ⟨-, pre, post, h, -⟩
      exact absurd h.symm (by simp)
  | cons x rest ih =>
    rw [dedupContentGo_cons]
    by_cases hx : seen.contains (rowSig x) = true
    · rw [if_pos hx, ih]
      rw [contains_iff_mem] at hx
      constructor
      · rintro ⟨hns, pre, post, hsplit, hpre⟩
        refine ⟨hns, x :: pre, post, by rw [hsplit]; rfl, ?_⟩
        intro p hp
        rcases List.mem_cons.mp hp with rfl | hp
        · exact fun hc => hns (hc ▸ hx)
        · exact hpre p hp
      · rintro ⟨hns, pre, post, hsplit, hpre⟩
        refine ⟨hns, ?_⟩
        cases pre with
        | nil =>
          simp only [List.nil_append] at hsplit
          injection hsplit with h1 h2
          exact absurd (h1 ▸ hx) hns
        | cons q pre' =>
          simp only [List.cons_append] at hsplit
          injection hsplit with h1 h2
          refine ⟨pre', post, h2, ?_⟩
          intro p hp
          exact hpre p (h1 ▸ List.mem_cons_of_mem q hp)
    · rw [if_neg hx]
      have hxm : rowSig x ∉ seen := fun hc => hx ((contains_iff_mem _ _).mpr hc)
      constructor
      · intro hmem
        rcases List.mem_cons.mp hmem with rfl | hmem
        · exact ⟨hxm, [], rest, rfl, by simp⟩
        · obtain ⟨hns, pre, post, hsplit, hpre⟩ := (ih _).mp hmem
          have hns1 : rowSig r ≠ rowSig x := fun hc => hns (by rw [hc]; exact List.mem_cons_self _ _)
          have hns2 : rowSig r ∉ seen := fun hc => hns (List.mem_cons_of_mem _ hc)
          refine ⟨hns2, x :: pre, post, by rw [hsplit]; rfl, ?_⟩
          intro p hp
          rcases List.mem_cons.mp hp with rfl | hp
          · exact fun hc => hns1 hc.symm
          · exact hpre p hp
      · rintro ⟨hns, pre, post, hsplit, hpre⟩
        cases pre with
        | nil =>
          simp only [List.nil_append] at hsplit
          injection hsplit with h1 h2
          rw [h1]
          exact List.mem_cons_self _ _
        | cons q pre' =>
          simp only [List.cons_append] at hsplit
          injection hsplit with h1 h2
          have hq : rowSig x ≠ rowSig r := by
            have := hpre q (List.mem_cons_self q pre')
            rw [← h1] at this
            exact this
          refine List.mem_cons_of_mem x ((ih _).mpr ⟨?_, pre', post, h2, ?_⟩)
          · intro hc
            rcases List.mem_cons.mp hc with hcc | hcc
            · exact hq hcc.symm
            · exact hns hcc
          · intro p hp
            exact hpre p (List.mem_cons_of_mem q hp)

lemma dedupContentGo_idem (seen : List String) (rows : List TsRow) :
    dedupContentGo seen (dedupContentGo seen rows) = dedupContentGo seen rows := by
  induction rows generalizing seen with
  | nil => rfl
  | cons r rest ih =>
    rw [dedupContentGo_cons seen r rest]
    by_cases hx : seen.contains (rowSig r) = true
    · rw [if_pos hx]
      exact ih seen
    · rw [if_neg hx, dedupContentGo_cons, if_neg hx, ih (rowSig r :: seen)]

/-- Claim C7: `deduplicateContent` is idempotent, never lengthens its input,
is order-preserving (a sublist of the input), and keeps exactly the first
row of each distinct content signature, in input order. -/
theorem c7_dedupe_laws (rows : List TsRow) :
    deduplicateContent (deduplicateContent rows) = deduplicateContent rows ∧
    (deduplicateContent rows).length ≤ rows.length ∧
    (deduplicateContent rows).Sublist rows ∧
    ∀ r, r ∈ deduplicateContent rows ↔
      ∃ pre post, rows = pre ++ r :: post ∧ ∀ p ∈ pre, rowSig p ≠ rowSig r := by
  refine ⟨dedupContentGo_idem [] rows, (dedupContentGo_sublist [] rows).length_le,
    dedupContentGo_sublist [] rows, fun r => ?_⟩
  rw [deduplicateContent, mem_dedupContentGo]
  simp

/-- Witness for C7: of two rows with an identical trimmed signature the
first is kept. -/
theorem c7_dedupe_laws_witness :
    [("名称", "X")] ∈ deduplicateContent [[("名称", "X")], [("名称", "X ")]] :=
  ((c7_dedupe_laws [[("名称", "X")], [("名称", "X ")]]).2.2.2 [("名称", "X")]).mpr
    ⟨[], [[("名称", "X ")]], rfl, by simp⟩

/- ===================== Claim C5 ===================== -/

lemma mkRuleResult_id (r : RuleItem) (sid : String) :
    (mkRuleResult r sid).standard_id = sid := rfl

lemma emitIncluded_cons_pos (r : RuleItem) (sid : String) (sids seen : List String)
    (h : seen.contains sid = true) :
    emitIncluded r (sid :: sids) seen = emitIncluded r sids seen := by
  simp only [emitIncluded]
  rw [if_pos h]

lemma emitIncluded_cons_neg (r : RuleItem) (sid : String) (sids seen : List String)
    (h : ¬ seen.contains sid = true) :
    emitIncluded r (sid :: sids) seen =
      (mkRuleResult r sid :: (emitIncluded r sids (sid :: seen)).1,
        (emitIncluded r sids (sid :: seen)).2) := by
  simp only [emitIncluded]
  rw [if_neg h]

lemma emitIncluded_snd_mem (r : RuleItem) (sids : List String) :
    ∀ (seen : List String) (t : String),
      t ∈ (emitIncluded r sids seen).2 ↔ t ∈ seen ∨ t ∈ sids := by
  induction sids with
  | nil => intro seen t; simp [emitIncluded]
  | cons sid sids ih =>
    intro seen t
    by_cases h : seen.contains sid = true
    · rw [emitIncluded_cons_pos r sid sids seen h, ih]
      have hs : sid ∈ seen := (contains_iff_mem _ _).mp h
      simp only [List.mem_cons]
      constructor
      · rintro (ht | ht)
        · exact Or.inl ht
        · exact Or.inr (Or.inr ht)
      · rintro (ht | rfl | ht)
        · exact Or.inl ht
        · exact Or.inl hs
        · exact Or.inr ht
    · rw [emitIncluded_cons_neg r sid sids seen h]
      show t ∈ (emitIncluded r sids (sid :: seen)).2 ↔ _
      rw [ih]
      simp only [List.mem_cons]
      tauto

lemma emitIncluded_fst_mem (r : RuleItem) (sids : List String) :
    ∀ (seen : List String) (x : MatchResult), x ∈ (emitIncluded r sids seen).1 →
      ∃ sid, sid ∈ sids ∧ sid ∉ seen ∧ x = mkRuleResult r sid := by
  induction sids with
  | nil => intro seen x hx; simp [emitIncluded] at hx
  | cons sid sids ih =>
    intro seen x hx
    by_cases h : seen.contains sid = true
    · rw [emitIncluded_cons_pos r sid sids seen h] at hx
      obtain ⟨sid', h1, h2, h3⟩ := ih seen x hx
      exact ⟨sid', List.mem_cons_of_mem _ h1, h2, h3⟩
    · rw [emitIncluded_cons_neg r sid sids seen h] at hx
      rcases List.mem_cons.mp hx with rfl | hx
      · exact ⟨sid, List.mem_cons_self _ _,
          fun hc => h ((contains_iff_mem _ _).mpr hc), rfl⟩
      · obtain ⟨sid', h1, h2, h3⟩ := ih (sid :: seen) x hx
        exact ⟨sid', List.mem_cons_of_mem _ h1,
          fun hc => h2 (List.mem_cons_of_mem _ hc), h3⟩

lemma emitIncluded_fst_not_seen (r : RuleItem) (sids seen : List String) (x : MatchResult)
    (hx : x ∈ (emitIncluded r sids seen).1) : x.standard_id ∉ seen := by
  obtain ⟨sid, -, h2, rfl⟩ := emitIncluded_fst_mem r sids seen x hx
  rw [mkRuleResult_id]
  exact h2

lemma emitIncluded_fst_nodup (r : RuleItem) (sids : List String) :
    ∀ seen : List String, ((emitIncluded r sids seen).1.map (·.standard_id)).Nodup := by
  induction sids with
  | nil => intro seen; simp [emitIncluded]
  | cons sid sids ih =>
    intro seen
    by_cases h : seen.contains sid = true
    · rw [emitIncluded_cons_pos r sid sids seen h]
      exact ih seen
    · rw [emitIncluded_cons_neg r sid sids seen h]
      simp only [List.map_cons, List.nodup_cons, mkRuleResult_id]
      refine ⟨?_, ih (sid :: seen)⟩
      intro hc
      obtain ⟨x, hx, hid⟩ := List.mem_map.mp hc
      have := emitIncluded_fst_not_seen r sids (sid :: seen) x hx
      rw [hid] at this
      exact this (List.mem_cons_self _ _)

lemma emitIncluded_covers (r : RuleItem) (sids : List String) :
    ∀ (seen : List String) (sid : String), sid ∈ sids → sid ∉ seen →
      ∃ x ∈ (emitIncluded r sids seen).1, x.standard_id = sid := by
  induction sids with
  | nil => intro seen sid h; simp at h
  | cons s sids ih =>
    intro seen sid hmem hns
    by_cases h : seen.contains s = true
    · rw [emitIncluded_cons_pos r s sids seen h]
      rcases List.mem_cons.mp hmem with rfl | hmem
      · exact absurd ((contains_iff_mem _ _).mp h) hns
      · exact ih seen sid hmem hns
    · rw [emitIncluded_cons_neg r s sids seen h]
      rcases List.mem_cons.mp hmem with rfl | hmem
      · exact ⟨mkRuleResult r sid, List.mem_cons_self _ _, rfl⟩
      · by_cases hss : sid = s
        · exact ⟨mkRuleResult r s, List.mem_cons_self _ _, hss ▸ rfl⟩
        · obtain ⟨x, hx, hid⟩ := ih (s :: seen) sid hmem
            (fun hc => (List.mem_cons.mp hc).elim hss hns)
          exact ⟨x, List.mem_cons_of_mem _ hx, hid⟩

lemma matchRulesGo_cons_pos (input : RuleEngineInput) (r : RuleItem) (rs : List RuleItem)
    (seen : List String) (h : doesRuleMatch r input = true) :
    matchRulesGo input (r :: rs) seen =
      (emitIncluded r r.include_standard_ids seen).1 ++
        matchRulesGo input rs (emitIncluded r r.include_standard_ids seen).2 := by
  simp [matchRulesGo, h]

lemma matchRulesGo_cons_neg (input : RuleEngineInput) (r : RuleItem) (rs : List RuleItem)
    (seen : List String) (h : ¬ doesRuleMatch r input = true) :
    matchRulesGo input (r :: rs) seen = matchRulesGo input rs seen := by
  simp [matchRulesGo, h]

lemma matchRulesGo_not_seen (input : RuleEngineInput) (rules : List RuleItem) :
    ∀ (seen : List String) (x : MatchResult), x ∈ matchRulesGo input rules seen →
      x.standard_id ∉ seen := by
  induction rules with
  | nil => intro seen x hx; simp [matchRulesGo] at hx
  | cons r rs ih =>
    intro seen x hx
    by_cases h : doesRuleMatch r input = true
    · rw [matchRulesGo_cons_pos input r rs seen h] at hx
      rcases List.mem_append.mp hx with hx | hx
      · exact emitIncluded_fst_not_seen r _ seen x hx
      · intro hc
        exact ih _ x hx ((emitIncluded_snd_mem r _ seen _).mpr (Or.inl hc))
    · rw [matchRulesGo_cons_neg input r rs seen h] at hx
      exact ih seen x hx

lemma matchRulesGo_nodup (input : RuleEngineInput) (rules : List RuleItem) :
    ∀ seen : List String, ((matchRulesGo input rules seen).map (·.standard_id)).Nodup := by
  induction rules with
  | nil => intro seen; simp [matchRulesGo]
  | cons r rs ih =>
    intro seen
    by_cases h : doesRuleMatch r input = true
    · rw [matchRulesGo_cons_pos input r rs seen h]
      rw [List.map_append, List.nodup_append]
      refine ⟨emitIncluded_fst_nodup r _ seen, ih _, ?_⟩
      intro t ht1 ht2
      obtain ⟨x, hx, rfl⟩ := List.mem_map.mp ht1
      obtain ⟨y, hy, hid⟩ := List.mem_map.mp ht2
      obtain ⟨sid, hsid, -, rfl⟩ := emitIncluded_fst_mem r _ seen x hx
      have hyns := matchRulesGo_not_seen input rs _ y hy
      rw [hid] at hyns
      rw [mkRuleResult_id] at hyns
      exact hyns ((emitIncluded_snd_mem r _ seen sid).mpr (Or.inr hsid))
    · rw [matchRulesGo_cons_neg input r rs seen h]
      exact ih seen

lemma matchRulesGo_split (input : RuleEngineInput) (rules : List RuleItem) :
    ∀ (seen : List String) (x : MatchResult), x ∈ matchRulesGo input rules seen →
      ∃ pre rr post, rules = pre ++ rr :: post ∧ doesRuleMatch rr input = true ∧
        x.standard_id ∈ rr.include_standard_ids ∧ x = mkRuleResult rr x.standard_id ∧
        ∀ r' ∈ pre, doesRuleMatch r' input = true →
          x.standard_id ∉ r'.include_standard_ids := by
  induction rules with
  | nil => intro seen x hx; simp [matchRulesGo] at hx
  | cons r rs ih =>
    intro seen x hx
    by_cases h : doesRuleMatch r input = true
    · rw [matchRulesGo_cons_pos input r rs seen h] at hx
      rcases List.mem_append.mp hx with hx | hx
      · obtain ⟨sid, h1, h2, rfl⟩ := emitIncluded_fst_mem r _ seen x hx
        exact ⟨[], r, rs, rfl, h, by rw [mkRuleResult_id]; exact h1, rfl, by simp⟩
      · obtain ⟨pre, rr, post, hsplit, hm, hin, hexact, hpre⟩ := ih _ x hx
        refine ⟨r :: pre, rr, post, by rw [hsplit]; rfl, hm, hin, hexact, ?_⟩
        intro r' hr' hm'
        rcases List.mem_cons.mp hr' with rfl | hr'
        · intro hc
          exact matchRulesGo_not_seen input rs _ x hx
            ((emitIncluded_snd_mem r' _ seen _).mpr (Or.inr hc))
        · exact hpre r' hr' hm'
    · rw [matchRulesGo_cons_neg input r rs seen h] at hx
      obtain ⟨pre, rr, post, hsplit, hm, hin, hexact, hpre⟩ := ih seen x hx
      refine ⟨r :: pre, rr, post, by rw [hsplit]; rfl, hm, hin, hexact, ?_⟩
      intro r' hr' hm'
      rcases List.mem_cons.mp hr' with rfl | hr'
      · exact absurd hm' h
      · exact hpre r' hr' hm'

lemma matchRulesGo_covers (input : RuleEngineInput) (rules : List RuleItem) :
    ∀ (seen : List String), ∀ rr ∈ rules, doesRuleMatch rr input = true →
      ∀ sid ∈ rr.include_standard_ids,
        sid ∈ seen ∨ ∃ x ∈ matchRulesGo input rules seen, x.standard_id = sid := by
  induction rules with
  | nil => intro seen rr h; simp at h
  | cons r rs ih =>
    intro seen rr hrr hm sid hsid
    by_cases h : doesRuleMatch r input = true
    · rw [matchRulesGo_cons_pos input r rs seen h]
      by_cases hseen : sid ∈ seen
      · exact Or.inl hseen
      · rcases List.mem_cons.mp hrr with rfl | hrr
        · obtain ⟨x, hx, hid⟩ := emitIncluded_covers rr _ seen sid hsid hseen
          exact Or.inr ⟨x, List.mem_append.mpr (Or.inl hx), hid⟩
        · rcases ih _ rr hrr hm sid hsid with hc | ⟨x, hx, hid⟩
          · rcases (emitIncluded_snd_mem r _ seen sid).mp hc with hc | hc
            · exact absurd hc hseen
            · obtain ⟨x, hx, hid⟩ := emitIncluded_covers r _ seen sid hc hseen
              exact Or.inr ⟨x, List.mem_append.mpr (Or.inl hx), hid⟩
          · exact Or.inr ⟨x, List.mem_append.mpr (Or.inr hx), hid⟩
    · rw [matchRulesGo_cons_neg input r rs seen h]
      rcases List.mem_cons.mp hrr with rfl | hrr
      · exact absurd hm h
      · exact ih seen rr hrr hm sid hsid

/-- Claim C5: `matchRules` emits, per matching rule, one rule-tagged
`MatchResult` per included standard id carrying that rule's id, produces at
most one result per standard id across the whole pass with the first-seen
rule winning, and on the concrete wildcard rule set returns exactly the
results for A and B tagged rule/R1. -/
theorem c5_match_emission (rules : List RuleItem) (input : RuleEngineInput) :
    ((matchRules rules input).map (·.standard_id)).Nodup ∧
    (∀ x ∈ matchRules rules input, x.source = .rule ∧
      ∃ pre rr post, rules = pre ++ rr :: post ∧ doesRuleMatch rr input = true ∧
        x.standard_id ∈ rr.include_standard_ids ∧ x.rule_id = some rr.rule_id ∧
        x.reason = some ("匹配规则 " ++ rr.rule_id) ∧
        ∀ r' ∈ pre, doesRuleMatch r' input = true →
          x.standard_id ∉ r'.include_standard_ids) ∧
    (∀ rr ∈ rules, doesRuleMatch rr input = true →
      ∀ sid ∈ rr.include_standard_ids,
        ∃ x ∈ matchRules rules input, x.standard_id = sid) ∧
    matchRules [{ rule_id := "R1", include_standard_ids := ["A", "B"] }]
        { industries := [], projectTypes := [] } =
      [{ standard_id := "A", source := .rule, rule_id := some "R1",
         reason := some "匹配规则 R1" },
       { standard_id := "B", source := .rule, rule_id := some "R1",
         reason := some "匹配规则 R1" }] := by
  refine ⟨matchRulesGo_nodup input rules [], ?_, ?_, by decide⟩
  · intro x hx
    obtain ⟨pre, rr, post, hsplit, hm, hin, hexact, hpre⟩ :=
      matchRulesGo_split input rules [] x hx
    refine ⟨by rw [hexact]; rfl, pre, rr, post, hsplit, hm, hin, ?_, ?_, hpre⟩
    · rw [hexact]; rfl
    · rw [hexact]; rfl
  · intro rr hrr hm sid hsid
    rcases matchRulesGo_covers input rules [] rr hrr hm sid hsid with hc | hc
    · simp at hc
    · exact hc

/-- Witness for C5: the first result of the concrete rule set, extracted by
applying the theorem's coverage clause to rule R1 and standard id A. -/
theorem c5_match_emission_witness :
    ∃ x ∈ matchRules [{ rule_id := "R1", include_standard_ids := ["A", "B"] }]
      { industries := [], projectTypes := [] }, x.standard_id = "A" :=
  (c5_match_emission [{ rule_id := "R1", include_standard_ids := ["A", "B"] }]
    { industries := [], projectTypes := [] }).2.2.1
    { rule_id := "R1", include_standard_ids := ["A", "B"] }
    (List.mem_cons_self _ _) (by decide) "A" (by decide)

/- ===================== Merger groundwork ===================== -/

lemma find?_cons_pos {α : Type} (p : α → Bool) (a : α) (l : List α) (h : p a = true) :
    (a :: l).find? p = some a := by
  simp [List.find?_cons, h]

lemma find?_cons_neg {α : Type} (p : α → Bool) (a : α) (l : List α) (h : p a = false) :
    (a :: l).find? p = l.find? p := by
  simp [List.find?_cons, h]

lemma filter_cons_pos {α : Type} (p : α → Bool) (a : α) (l : List α) (h : p a = true) :
    (a :: l).filter p = a :: l.filter p := by
  simp [List.filter_cons, h]

lemma filter_cons_neg {α : Type} (p : α → Bool) (a : α) (l : List α) (h : p a = false) :
    (a :: l).filter p = l.filter p := by
  simp [List.filter_cons, h]

lemma find?_append_none {α : Type} (p : α → Bool) (l₁ l₂ : List α)
    (h : l₁.find? p = none) : (l₁ ++ l₂).find? p = l₂.find? p := by
  induction l₁ with
  | nil => rfl
  | cons a l ih =>
    by_cases hp : p a = true
    · rw [find?_cons_pos p a l hp] at h
      exact absurd h (by simp)
    · rw [find?_cons_neg p a l (by simpa using hp)] at h
      rw [List.cons_append, find?_cons_neg p a (l ++ l₂) (by simpa using hp)]
      exact ih h

lemma find?_append_some {α : Type} (p : α → Bool) (l₁ l₂ : List α) (v : α)
    (h : l₁.find? p = some v) : (l₁ ++ l₂).find? p = some v := by
  induction l₁ with
  | nil => simp at h
  | cons a l ih =>
    by_cases hp : p a = true
    · rw [find?_cons_pos p a l hp] at h
      rw [List.cons_append, find?_cons_pos p a (l ++ l₂) hp]
      exact h
    · rw [find?_cons_neg p a l (by simpa using hp)] at h
      rw [List.cons_append, find?_cons_neg p a (l ++ l₂) (by simpa using hp)]
      exact ih h

lemma srcPriority_le_three (s : MatchSource) : srcPriority s ≤ 3 := by
  cases s <;> simp [srcPriority]

lemma srcPriority_eq_three (s : MatchSource) : srcPriority s = 3 ↔ s = .rule := by
  cases s <;> simp [srcPriority]

lemma dedupResStep_pos (x : MatchResult) (unique : List MatchResult) (seen : List String)
    (h : seen.contains x.standard_id = true) :
    dedupResStep true (unique, seen) x = (replaceIfHigher x unique, seen) := by
  unfold dedupResStep
  rw [if_pos h]
  rfl

lemma dedupResStep_neg (x : MatchResult) (unique : List MatchResult) (seen : List String)
    (h : ¬ seen.contains x.standard_id = true) :
    dedupResStep true (unique, seen) x = (unique ++ [x], x.standard_id :: seen) := by
  unfold dedupResStep
  rw [if_neg h]

lemma replaceIfHigher_map_id (x : MatchResult) :
    ∀ l : List MatchResult,
      (replaceIfHigher x l).map (·.standard_id) = l.map (·.standard_id) := by
  intro l
  induction l with
  | nil => rfl
  | cons u us ih =>
    simp only [replaceIfHigher]
    by_cases hu : (u.standard_id == x.standard_id) = true
    · rw [if_pos hu]
      have he : u.standard_id = x.standard_id := beq_iff_eq.mp hu
      split <;> simp [he]
    · rw [if_neg hu]
      simp [ih]

lemma find?_replaceIfHigher_eq (x : MatchResult) :
    ∀ (l : List MatchResult) (u0 : MatchResult),
      l.find? (fun u => u.standard_id == x.standard_id) = some u0 →
      (replaceIfHigher x l).find? (fun u => u.standard_id == x.standard_id) =
        some (if srcPriority u0.source < srcPriority x.source then x else u0) := by
  intro l
  induction l with
  | nil => intro u0 h; simp at h
  | cons u us ih =>
    intro u0 h
    by_cases hu : (u.standard_id == x.standard_id) = true
    · rw [find?_cons_pos (fun u => u.standard_id == x.standard_id) u us hu] at h
      injection h with h
      subst h
      simp only [replaceIfHigher, if_pos hu]
      split
      · exact find?_cons_pos _ x us (beq_self_eq_true _)
      · exact find?_cons_pos _ u us hu
    · rw [find?_cons_neg (fun u => u.standard_id == x.standard_id) u us (by simpa using hu)] at h
      simp only [replaceIfHigher, if_neg hu]
      rw [find?_cons_neg (fun u => u.standard_id == x.standard_id) u _ (by simpa using hu)]
      exact ih u0 h

lemma find?_replaceIfHigher_ne (x : MatchResult) (s : String) (hs : s ≠ x.standard_id) :
    ∀ l : List MatchResult,
      (replaceIfHigher x l).find? (fun u => u.standard_id == s) =
        l.find? (fun u => u.standard_id == s) := by
  intro l
  induction l with
  | nil => rfl
  | cons u us ih =>
    simp only [replaceIfHigher]
    by_cases hu : (u.standard_id == x.standard_id) = true
    · rw [if_pos hu]
      have he : u.standard_id = x.standard_id := beq_iff_eq.mp hu
      have hps : (x.standard_id == s) = false := beq_eq_false_iff_ne.mpr fun hc => hs hc.symm
      have hus : (u.standard_id == s) = false := by rw [he]; exact hps
      split
      · rw [find?_cons_neg (fun u => u.standard_id == s) x us hps,
          find?_cons_neg (fun u => u.standard_id == s) u us hus]
      · rfl
    · rw [if_neg hu]
      by_cases hp : (u.standard_id == s) = true
      · rw [find?_cons_pos (fun u => u.standard_id == s) u _ hp,
          find?_cons_pos (fun u => u.standard_id == s) u us hp]
      · rw [find?_cons_neg (fun u => u.standard_id == s) u _ (by simpa using hp),
          find?_cons_neg (fun u => u.standard_id == s) u us (by simpa using hp)]
        exact ih

lemma dedupStep_hiv (x : MatchResult) (unique : List MatchResult) (seen : List String)
    (hiv : ∀ t, seen.contains t = true ↔ ∃ u ∈ unique, u.standard_id = t)
    (hnd : (unique.map (·.standard_id)).Nodup) :
    (∀ t, (dedupResStep true (unique, seen) x).2.contains t = true ↔
        ∃ u ∈ (dedupResStep true (unique, seen) x).1, u.standard_id = t) ∧
      ((dedupResStep true (unique, seen) x).1.map (·.standard_id)).Nodup := by
  by_cases hc : seen.contains x.standard_id = true
  · rw [dedupResStep_pos x unique seen hc]
    constructor
    · intro t
      rw [hiv t]
      have hm := replaceIfHigher_map_id x unique
      constructor
      · rintro ⟨u, hu, hid⟩
        have : t ∈ (replaceIfHigher x unique).map (·.standard_id) := by
          rw [hm]
          exact List.mem_map.mpr ⟨u, hu, hid⟩
        obtain ⟨v, hv, hvid⟩ := List.mem_map.mp this
        exact ⟨v, hv, hvid⟩
      · rintro ⟨u, hu, hid⟩
        have : t ∈ unique.map (·.standard_id) := by
          rw [← hm]
          exact List.mem_map.mpr ⟨u, hu, hid⟩
        obtain ⟨v, hv, hvid⟩ := List.mem_map.mp this
        exact ⟨v, hv, hvid⟩
    · rw [replaceIfHigher_map_id x unique]
      exact hnd
  · rw [dedupResStep_neg x unique seen hc]
    constructor
    · intro t
      constructor
      · intro ht
        rcases List.mem_cons.mp ((contains_iff_mem _ _).mp ht) with hh | hh
        · exact ⟨x, by simp, hh.symm⟩
        · obtain ⟨u, hu, hid⟩ := (hiv t).mp ((contains_iff_mem _ _).mpr hh)
          exact ⟨u, by simp [hu], hid⟩
      · rintro ⟨u, hu, hid⟩
        rcases List.mem_append.mp hu with hu | hu
        · exact (contains_iff_mem _ _).mpr
            (List.mem_cons_of_mem _ ((contains_iff_mem _ _).mp ((hiv t).mpr ⟨u, hu, hid⟩)))
        · rw [List.mem_singleton] at hu
          subst hu
          rw [← hid]
          exact (contains_iff_mem _ _).mpr (List.mem_cons_self _ _)
    · rw [List.map_append, List.nodup_append]
      refine ⟨hnd, by simp, ?_⟩
      intro t ht1 ht2
      simp only [List.map_cons, List.map_nil, List.mem_singleton] at ht2
      subst ht2
      obtain ⟨u, hu, hid⟩ := List.mem_map.mp ht1
      exact hc ((hiv _).mpr ⟨u, hu, hid⟩)

lemma dedupFold_hiv (l : List MatchResult) :
    ∀ (unique : List MatchResult) (seen : List String),
      (∀ t, seen.contains t = true ↔ ∃ u ∈ unique, u.standard_id = t) →
      (unique.map (·.standard_id)).Nodup →
      (∀ t, (l.foldl (dedupResStep true) (unique, seen)).2.contains t = true ↔
          ∃ u ∈ (l.foldl (dedupResStep true) (unique, seen)).1, u.standard_id = t) ∧
        ((l.foldl (dedupResStep true) (unique, seen)).1.map (·.standard_id)).Nodup := by
  induction l with
  | nil => intro unique seen hiv hnd; exact ⟨hiv, hnd⟩
  | cons x xs ih =>
    intro unique seen hiv hnd
    rw [List.foldl_cons]
    obtain ⟨hiv', hnd'⟩ := dedupStep_hiv x unique seen hiv hnd
    by_cases hc : seen.contains x.standard_id = true
    · rw [dedupResStep_pos x unique seen hc] at hiv' hnd' ⊢
      exact ih _ _ hiv' hnd'
    · rw [dedupResStep_neg x unique seen hc] at hiv' hnd' ⊢
      exact ih _ _ hiv' hnd'

lemma foldBest_nil (acc : Option MatchResult) : foldBest acc [] = acc := by
  cases acc <;> rfl

lemma foldBest_some_eq (xs : List MatchResult) :
    ∀ c : MatchResult, foldBest (some c) xs = some (keepBestAux c xs) := by
  induction xs with
  | nil => intro c; rfl
  | cons x xs ih =>
    intro c
    show foldBest (some (if srcPriority c.source < srcPriority x.source then x else c)) xs = _
    rw [ih]
    rfl

lemma foldBest_none_eq (xs : List MatchResult) : foldBest none xs = keepBest? xs := by
  cases xs with
  | nil => rfl
  | cons x xs =>
    show foldBest (some x) xs = _
    rw [foldBest_some_eq]
    rfl

lemma dedupFold_find (s : String) (l : List MatchResult) :
    ∀ (unique : List MatchResult) (seen : List String),
      (∀ t, seen.contains t = true ↔ ∃ u ∈ unique, u.standard_id = t) →
      (unique.map (·.standard_id)).Nodup →
      (l.foldl (dedupResStep true) (unique, seen)).1.find? (fun u => u.standard_id == s) =
        foldBest (unique.find? (fun u => u.standard_id == s))
          (l.filter (fun x => x.standard_id == s)) := by
  induction l with
  | nil =>
    intro unique seen hiv hnd
    rw [List.foldl_nil, List.filter_nil, foldBest_nil]
  | cons x xs ih =>
    intro unique seen hiv hnd
    rw [List.foldl_cons]
    obtain ⟨hiv', hnd'⟩ := dedupStep_hiv x unique seen hiv hnd
    by_cases hc : seen.contains x.standard_id = true
    · rw [dedupResStep_pos x unique seen hc] at hiv' hnd' ⊢
      by_cases hs : x.standard_id = s
      · subst hs
        obtain ⟨u0, hu0⟩ :
            ∃ u0, unique.find? (fun u => u.standard_id == x.standard_id) = some u0 := by
          obtain ⟨u, hu, hid⟩ := (hiv _).mp hc
          have : (unique.find? (fun u => u.standard_id == x.standard_id)).isSome := by
            rw [List.find?_isSome]
            exact ⟨u, hu, by simp [hid]⟩
          exact Option.isSome_iff_exists.mp this
        rw [ih _ _ hiv' hnd', hu0,
          filter_cons_pos (fun y => y.standard_id == x.standard_id) x xs (by simp),
          find?_replaceIfHigher_eq x unique u0 hu0]
        rfl
      · rw [ih _ _ hiv' hnd',
          filter_cons_neg (fun y => y.standard_id == s) x xs (by simp [hs]),
          find?_replaceIfHigher_ne x s (Ne.symm hs) unique]
    · rw [dedupResStep_neg x unique seen hc] at hiv' hnd' ⊢
      by_cases hs : x.standard_id = s
      · subst hs
        have hnone : unique.find? (fun u => u.standard_id == x.standard_id) = none := by
          rw [List.find?_eq_none]
          intro u hu hpu
          exact hc ((hiv _).mpr ⟨u, hu, beq_iff_eq.mp hpu⟩)
        rw [ih _ _ hiv' hnd',
          filter_cons_pos (fun y => y.standard_id == x.standard_id) x xs (by simp),
          find?_append_none _ unique [x] hnone,
          find?_cons_pos (fun u => u.standard_id == x.standard_id) x [] (beq_self_eq_true _),
          hnone]
        rw [foldBest_none_eq]
        cases hfil : xs.filter (fun y => y.standard_id == x.standard_id) with
        | nil => rfl
        | cons c cs =>
          rw [foldBest_some_eq]
          rfl
      · rw [ih _ _ hiv' hnd',
          filter_cons_neg (fun y => y.standard_id == s) x xs (by simp [hs])]
        cases hu : unique.find? (fun u => u.standard_id == s) with
        | none =>
          rw [find?_append_none _ unique [x] hu,
            find?_cons_neg (fun u => u.standard_id == s) x [] (by simp [hs]), List.find?_nil]
        | some v =>
          rw [find?_append_some _ unique [x] v hu]

lemma dedupRes_find (l : List MatchResult) (s : String) :
    (deduplicateResults true l).find? (fun u => u.standard_id == s) =
      keepBest? (l.filter fun x => x.standard_id == s) := by
  unfold deduplicateResults
  rw [dedupFold_find s l [] [] (by simp) (by simp), List.find?_nil, foldBest_none_eq]

lemma dedupRes_nodup (l : List MatchResult) :
    ((deduplicateResults true l).map (·.standard_id)).Nodup :=
  (dedupFold_hiv l [] [] (by simp) (by simp)).2

lemma keepBestAux_mem (xs : List MatchResult) :
    ∀ c : MatchResult, keepBestAux c xs ∈ c :: xs := by
  induction xs with
  | nil => intro c; exact List.mem_cons_self _ _
  | cons x xs ih =>
    intro c
    show keepBestAux (if srcPriority c.source < srcPriority x.source then x else c) xs ∈ _
    have := ih (if srcPriority c.source < srcPriority x.source then x else c)
    rcases List.mem_cons.mp this with he | he
    · rw [he]
      split
      · exact List.mem_cons_of_mem _ (List.mem_cons_self _ _)
      · exact List.mem_cons_self _ _
    · exact List.mem_cons_of_mem _ (List.mem_cons_of_mem _ he)

lemma keepBestAux_ge (xs : List MatchResult) :
    ∀ c : MatchResult,
      srcPriority c.source ≤ srcPriority (keepBestAux c xs).source ∧
        ∀ x ∈ xs, srcPriority x.source ≤ srcPriority (keepBestAux c xs).source := by
  induction xs with
  | nil => intro c; exact ⟨le_refl _, by simp⟩
  | cons x xs ih =>
    intro c
    show srcPriority c.source ≤ srcPriority
        (keepBestAux (if srcPriority c.source < srcPriority x.source then x else c) xs).source ∧ _
    obtain ⟨h1, h2⟩ := ih (if srcPriority c.source < srcPriority x.source then x else c)
    have hc : srcPriority c.source ≤
        srcPriority (if srcPriority c.source < srcPriority x.source then x else c).source := by
      split <;> omega
    have hx : srcPriority x.source ≤
        srcPriority (if srcPriority c.source < srcPriority x.source then x else c).source := by
      split <;> omega
    refine ⟨le_trans hc h1, ?_⟩
    intro y hy
    rcases List.mem_cons.mp hy with rfl | hy
    · exact le_trans hx h1
    · exact h2 y hy

lemma filter_eq_of_find?_nodup (s : String) :
    ∀ (d : List MatchResult) (e : MatchResult),
      (d.map (·.standard_id)).Nodup →
      d.find? (fun u => u.standard_id == s) = some e →
      d.filter (fun u => u.standard_id == s) = [e] := by
  intro d
  induction d with
  | nil => intro e _ h; simp at h
  | cons u us ih =>
    intro e hnd hf
    by_cases hp : (u.standard_id == s) = true
    · rw [find?_cons_pos (fun u => u.standard_id == s) u us hp] at hf
      injection hf with hf
      subst hf
      rw [filter_cons_pos (fun v => v.standard_id == s) u us hp]
      rw [List.map_cons, List.nodup_cons] at hnd
      have hnil : us.filter (fun v => v.standard_id == s) = [] := by
        rw [List.filter_eq_nil_iff]
        intro v hv hpv
        have h1 : v.standard_id = s := beq_iff_eq.mp hpv
        have h2 : u.standard_id = s := beq_iff_eq.mp hp
        exact hnd.1 (h2 ▸ h1 ▸ List.mem_map.mpr ⟨v, hv, rfl⟩)
      rw [hnil]
    · rw [find?_cons_neg (fun u => u.standard_id == s) u us (by simpa using hp)] at hf
      rw [filter_cons_neg (fun v => v.standard_id == s) u us (by simpa using hp)]
      rw [List.map_cons, List.nodup_cons] at hnd
      exact ih e hnd.2 hf

lemma charsLe_total : ∀ a b : List Char, charsLe a b = true ∨ charsLe b a = true := by
  intro a
  induction a with
  | nil => intro b; exact Or.inl rfl
  | cons x xs ih =>
    intro b
    cases b with
    | nil => exact Or.inr rfl
    | cons y ys =>
      simp only [charsLe]
      rcases Nat.lt_trichotomy x.toNat y.toNat with h | h | h
      · exact Or.inl (by rw [if_pos h])
      · rcases ih ys with hc | hc
        · exact Or.inl (by rw [if_neg (by omega), if_neg (by omega)]; exact hc)
        · exact Or.inr (by rw [if_neg (by omega), if_neg (by omega)]; exact hc)
      · exact Or.inr (by rw [if_pos h])

lemma charsLe_trans : ∀ a b c : List Char,
    charsLe a b = true → charsLe b c = true → charsLe a c = true := by
  intro a
  induction a with
  | nil => intro b c _ _; rfl
  | cons x xs ih =>
    intro b c hab hbc
    cases b with
    | nil => simp [charsLe] at hab
    | cons y ys =>
      cases c with
      | nil => simp [charsLe] at hbc
      | cons z zs =>
        simp only [charsLe] at hab hbc ⊢
        rcases Nat.lt_trichotomy x.toNat y.toNat with h1 | h1 | h1
        · rcases Nat.lt_trichotomy y.toNat z.toNat with h2 | h2 | h2
          · rw [if_pos (by omega)]
          · rw [if_pos (by omega)]
          · rw [if_neg (by omega), if_pos h2] at hbc
            exact absurd hbc (by simp)
        · rcases Nat.lt_trichotomy y.toNat z.toNat with h2 | h2 | h2
          · rw [if_pos (by omega)]
          · rw [if_neg (by omega), if_neg (by omega)]
            rw [if_neg (by omega), if_neg (by omega)] at hab
            rw [if_neg (by omega), if_neg (by omega)] at hbc
            exact ih ys zs hab hbc
          · rw [if_neg (by omega), if_pos h2] at hbc
            exact absurd hbc (by simp)
        · rw [if_neg (by omega), if_pos h1] at hab
          exact absurd hab (by simp)

lemma resultLe_total : ∀ a b : MatchResult, resultLe a b = true ∨ resultLe b a = true := by
  intro a b
  simp only [resultLe, strLe, Bool.or_eq_true, Bool.and_eq_true, decide_eq_true_eq,
    beq_iff_eq]
  rcases Nat.lt_trichotomy (srcPriority a.source) (srcPriority b.source) with h | h | h
  · exact Or.inr (Or.inl h)
  · rcases charsLe_total a.standard_id.data b.standard_id.data with hc | hc
    · exact Or.inl (Or.inr ⟨h, hc⟩)
    · exact Or.inr (Or.inr ⟨h.symm, hc⟩)
  · exact Or.inl (Or.inl h)

lemma resultLe_trans : ∀ a b c : MatchResult,
    resultLe a b = true → resultLe b c = true → resultLe a c = true := by
  intro a b c hab hbc
  simp only [resultLe, strLe, Bool.or_eq_true, Bool.and_eq_true, decide_eq_true_eq,
    beq_iff_eq] at hab hbc ⊢
  rcases hab with hab | ⟨hab1, hab2⟩
  · rcases hbc with hbc | ⟨hbc1, hbc2⟩
    · exact Or.inl (by omega)
    · exact Or.inl (by omega)
  · rcases hbc with hbc | ⟨hbc1, hbc2⟩
    · exact Or.inl (by omega)
    · exact Or.inr ⟨by omega, charsLe_trans _ _ _ hab2 hbc2⟩

instance : IsTotal MatchResult resultOrder :=
  ⟨fun a b => resultLe_total a b⟩

instance : IsTrans MatchResult resultOrder :=
  ⟨fun a b c => resultLe_trans a b c⟩

lemma sortResults_perm (l : List MatchResult) : (sortResults l).Perm l :=
  List.perm_insertionSort resultOrder l

lemma sortResults_sorted (l : List MatchResult) : (sortResults l).Pairwise resultOrder :=
  List.sorted_insertionSort resultOrder l

lemma mergeResults_default_eq (stds : List StandardItem) (input : MergerInput) :
    mergeResults defaultMergerOptions stds input =
      (sortResults (deduplicateResults true
          (input.ruleResults ++ input.aiResults ++ input.manualResults.getD []))).map
        fun r => (r, stds.find? fun st => st.standard_id == r.standard_id) := rfl

lemma filter_map_pair (stds : List StandardItem) (s : String) :
    ∀ l : List MatchResult,
      ((l.map fun r => (r, stds.find? fun st => st.standard_id == r.standard_id)).filter
          fun e => e.1.standard_id == s) =
        (l.filter fun r => r.standard_id == s).map
          fun r => (r, stds.find? fun st => st.standard_id == r.standard_id) := by
  intro l
  induction l with
  | nil => rfl
  | cons r rs ih =>
    by_cases hp : (r.standard_id == s) = true
    · rw [List.map_cons,
        filter_cons_pos (fun e : MatchResult × Option StandardItem => e.1.standard_id == s) _ _ hp,
        filter_cons_pos (fun r => r.standard_id == s) r rs hp,
        List.map_cons, ih]
    · rw [List.map_cons,
        filter_cons_neg (fun e : MatchResult × Option StandardItem => e.1.standard_id == s) _ _
          (by simpa using hp),
        filter_cons_neg (fun r => r.standard_id == s) r rs (by simpa using hp), ih]

lemma mergeResults_map_fst (stds : List StandardItem) (input : MergerInput) :
    (mergeResults defaultMergerOptions stds input).map Prod.fst =
      sortResults (deduplicateResults true
        (input.ruleResults ++ input.aiResults ++ input.manualResults.getD [])) := by
  rw [mergeResults_default_eq, List.map_map]
  exact List.map_id _


/- ===================== Claim C1 ===================== -/

/-- Claim C1: with default options, any standard id carried by a rule-sourced
entry of the rule list ends up as exactly one merged entry, and that entry is
rule-sourced, even when an ai-sourced entry for the same id is present; in
general the concatenation rule ++ ai ++ manual is deduplicated per id by the
first-seen-unless-strictly-higher-priority policy and the result is sorted
descending by source priority then ascending by standard id. -/
theorem c1_merge_priority (rr ar mr : List MatchResult) (stds : List StandardItem) (s : String)
    (hr : ∃ x ∈ rr, x.source = .rule ∧ x.standard_id = s)
    (_ha : ∃ x ∈ ar, x.source = .ai ∧ x.standard_id = s) :
    (∃ e, ((mergeResults defaultMergerOptions stds ⟨rr, ar, some mr⟩).filter
        fun p => p.1.standard_id == s) =
        [(e, stds.find? fun st => st.standard_id == e.standard_id)] ∧ e.source = .rule) ∧
    (∀ t, (deduplicateResults true (rr ++ ar ++ mr)).find? (fun u => u.standard_id == t) =
      keepBest? ((rr ++ ar ++ mr).filter fun x => x.standard_id == t)) ∧
    ((mergeResults defaultMergerOptions stds ⟨rr, ar, some mr⟩).map Prod.fst).Pairwise
      resultOrder ∧
    ((mergeResults defaultMergerOptions stds ⟨rr, ar, some mr⟩).map Prod.fst).Perm
      (deduplicateResults true (rr ++ ar ++ mr)) := by
  have hfst : (mergeResults defaultMergerOptions stds ⟨rr, ar, some mr⟩).map Prod.fst =
      sortResults (deduplicateResults true (rr ++ ar ++ mr)) :=
    mergeResults_map_fst stds ⟨rr, ar, some mr⟩
  refine ⟨?_, fun t => dedupRes_find (rr ++ ar ++ mr) t,
    by rw [hfst]; exact sortResults_sorted _,
    by rw [hfst]; exact sortResults_perm _⟩
  obtain ⟨xr, hxr, hsrc, hsid⟩ := hr
  have hxrc : xr ∈ (rr ++ ar ++ mr).filter (fun x => x.standard_id == s) :=
    List.mem_filter.mpr ⟨by simp [hxr], by simp [hsid]⟩
  obtain ⟨c, cs, hcc⟩ :
      ∃ c cs, (rr ++ ar ++ mr).filter (fun x => x.standard_id == s) = c :: cs := by
    cases hc : (rr ++ ar ++ mr).filter (fun x => x.standard_id == s) with
    | nil => rw [hc] at hxrc; simp at hxrc
    | cons c cs => exact ⟨c, cs, rfl⟩
  have hemem : keepBestAux c cs ∈ (rr ++ ar ++ mr).filter (fun x => x.standard_id == s) := by
    rw [hcc]
    exact keepBestAux_mem cs c
  have hege : ∀ y ∈ (rr ++ ar ++ mr).filter (fun x => x.standard_id == s),
      srcPriority y.source ≤ srcPriority (keepBestAux c cs).source := by
    intro y hy
    rw [hcc] at hy
    rcases List.mem_cons.mp hy with rfl | hy
    · exact (keepBestAux_ge cs y).1
    · exact (keepBestAux_ge cs c).2 y hy
  have hp3 : srcPriority (keepBestAux c cs).source = 3 := by
    have hle := hege xr hxrc
    rw [hsrc] at hle
    have h3r : srcPriority MatchSource.rule = 3 := rfl
    rw [h3r] at hle
    have hub := srcPriority_le_three (keepBestAux c cs).source
    omega
  have hrule : (keepBestAux c cs).source = .rule := (srcPriority_eq_three _).mp hp3
  have hfind : (deduplicateResults true (rr ++ ar ++ mr)).find?
      (fun u => u.standard_id == s) = some (keepBestAux c cs) := by
    rw [dedupRes_find, hcc]
    rfl
  have hfilter : (deduplicateResults true (rr ++ ar ++ mr)).filter
      (fun u => u.standard_id == s) = [keepBestAux c cs] :=
    filter_eq_of_find?_nodup s _ _ (dedupRes_nodup _) hfind
  have hsortfilter : (sortResults (deduplicateResults true (rr ++ ar ++ mr))).filter
      (fun u => u.standard_id == s) = [keepBestAux c cs] := by
    have hperm := List.Perm.filter (fun u => u.standard_id == s)
      (sortResults_perm (deduplicateResults true (rr ++ ar ++ mr)))
    rw [hfilter] at hperm
    exact List.perm_singleton.mp hperm
  refine ⟨keepBestAux c cs, ?_, hrule⟩
  show ((sortResults (deduplicateResults true (rr ++ ar ++ mr))).map
      (fun r => (r, stds.find? fun st => st.standard_id == r.standard_id))).filter
      (fun p => p.1.standard_id == s) = _
  rw [filter_map_pair stds s, hsortfilter]
  rfl

/-- Witness for C1 at a one-element rule list and one-element ai list sharing
the standard id S1. -/
theorem c1_merge_priority_witness :
    ∃ e, ((mergeResults defaultMergerOptions []
        ⟨[{ standard_id := "S1", source := .rule, rule_id := some "R1" }],
          [{ standard_id := "S1", source := .ai, reason := some "推荐" }], some []⟩).filter
        fun p => p.1.standard_id == "S1") =
        [(e, ([] : List StandardItem).find? fun st => st.standard_id == e.standard_id)] ∧
        e.source = .rule :=
  (c1_merge_priority [{ standard_id := "S1", source := .rule, rule_id := some "R1" }]
    [{ standard_id := "S1", source := .ai, reason := some "推荐" }] [] [] "S1"
    ⟨_, List.mem_cons_self _ _, rfl, rfl⟩
    ⟨_, List.mem_cons_self _ _, rfl, rfl⟩).1

/- ===================== Claim C9 ===================== -/

lemma pairwise_of_mem_rel {α : Type} (R : α → α → Prop) :
    ∀ l : List α, (∀ a ∈ l, ∀ b ∈ l, R a b) → l.Pairwise R := by
  intro l
  induction l with
  | nil => intro _; exact List.Pairwise.nil
  | cons a l ih =>
    intro h
    refine List.Pairwise.cons ?_ (ih ?_)
    · intro b hb
      exact h a (by simp) b (by simp [hb])
    · intro x hx y hy
      exact h x (by simp [hx]) y (by simp [hy])

lemma replaceIfHigher_noop (x : MatchResult) :
    ∀ unique : List MatchResult,
      (∀ u ∈ unique, srcPriority x.source ≤ srcPriority u.source) →
      replaceIfHigher x unique = unique := by
  intro unique
  induction unique with
  | nil => intro _; rfl
  | cons u us ih =>
    intro h
    simp only [replaceIfHigher]
    by_cases hu : (u.standard_id == x.standard_id) = true
    · rw [if_pos hu, if_neg (by have := h u (by simp); omega)]
    · rw [if_neg hu, ih (fun v hv => h v (by simp [hv]))]

lemma dedupFold_eq_first (l : List MatchResult) :
    ∀ (unique : List MatchResult) (seen : List String),
      (∀ u ∈ unique, ∀ x ∈ l, srcPriority x.source ≤ srcPriority u.source) →
      l.Pairwise (fun a b => srcPriority b.source ≤ srcPriority a.source) →
      l.foldl (dedupResStep true) (unique, seen) = l.foldl firstDedupStep (unique, seen) := by
  induction l with
  | nil => intro unique seen _ _; rfl
  | cons x xs ih =>
    intro unique seen hle hpw
    obtain ⟨hx, hpw'⟩ := List.pairwise_cons.mp hpw
    rw [List.foldl_cons, List.foldl_cons]
    by_cases hc : seen.contains x.standard_id = true
    · rw [dedupResStep_pos x unique seen hc,
        replaceIfHigher_noop x unique (fun u hu => hle u hu x (by simp))]
      have hfs : firstDedupStep (unique, seen) x = (unique, seen) := by
        unfold firstDedupStep
        rw [if_pos hc]
      rw [hfs]
      exact ih unique seen (fun u hu y hy => hle u hu y (by simp [hy])) hpw'
    · rw [dedupResStep_neg x unique seen hc]
      have hfs : firstDedupStep (unique, seen) x = (unique ++ [x], x.standard_id :: seen) := by
        unfold firstDedupStep
        rw [if_neg hc]
      rw [hfs]
      refine ih _ _ ?_ hpw'
      intro u hu y hy
      rcases List.mem_append.mp hu with hu | hu
      · exact hle u hu y (by simp [hy])
      · rw [List.mem_singleton] at hu
        subst hu
        exact hx y hy

lemma concat_sources_pairwise (rr ar mr : List MatchResult)
    (h1 : ∀ x ∈ rr, x.source = .rule) (h2 : ∀ x ∈ ar, x.source = .ai)
    (h3 : ∀ x ∈ mr, x.source = .manual) :
    (rr ++ ar ++ mr).Pairwise
      (fun a b => srcPriority b.source ≤ srcPriority a.source) := by
  rw [List.pairwise_append, List.pairwise_append]
  refine ⟨⟨pairwise_of_mem_rel _ rr ?_, pairwise_of_mem_rel _ ar ?_, ?_⟩,
    pairwise_of_mem_rel _ mr ?_, ?_⟩
  · intro a ha b hb
    rw [h1 a ha, h1 b hb]
  · intro a ha b hb
    rw [h2 a ha, h2 b hb]
  · intro a ha b hb
    rw [h1 a ha, h2 b hb]
    simp [srcPriority]
  · intro a ha b hb
    rw [h3 a ha, h3 b hb]
  · intro a ha b hb
    rcases List.mem_append.mp ha with ha | ha
    · rw [h1 a ha, h3 b hb]
      simp [srcPriority]
    · rw [h2 a ha, h3 b hb]
      simp [srcPriority]

/-- Claim C9 (refinement): when each input list carries entries of its own
source only — the documented call order — `mergeResults` with default options
coincides with the simpler first-occurrence-dedup-then-sort algorithm: the
strictly-higher-priority replacement branch never fires, and consequently the
merged output has pairwise-distinct standard ids. -/
theorem c9_merge_refinement (rr ar mr : List MatchResult) (stds : List StandardItem)
    (h1 : ∀ x ∈ rr, x.source = .rule) (h2 : ∀ x ∈ ar, x.source = .ai)
    (h3 : ∀ x ∈ mr, x.source = .manual) :
    mergeResults defaultMergerOptions stds ⟨rr, ar, some mr⟩ =
      mergeSimple stds ⟨rr, ar, some mr⟩ ∧
    deduplicateResults true (rr ++ ar ++ mr) = firstDedup (rr ++ ar ++ mr) ∧
    ((mergeResults defaultMergerOptions stds ⟨rr, ar, some mr⟩).map
      fun p => p.1.standard_id).Nodup := by
  have hdd : deduplicateResults true (rr ++ ar ++ mr) = firstDedup (rr ++ ar ++ mr) := by
    unfold deduplicateResults firstDedup
    rw [dedupFold_eq_first (rr ++ ar ++ mr) [] [] (by simp)
      (concat_sources_pairwise rr ar mr h1 h2 h3)]
  refine ⟨?_, hdd, ?_⟩
  · show (sortResults (deduplicateResults true (rr ++ ar ++ mr))).map
        (fun r => (r, stds.find? fun st => st.standard_id == r.standard_id)) =
      (sortResults (firstDedup (rr ++ ar ++ mr))).map
        (fun r => (r, stds.find? fun st => st.standard_id == r.standard_id))
    rw [hdd]
  · have hfst : (mergeResults defaultMergerOptions stds ⟨rr, ar, some mr⟩).map Prod.fst =
        sortResults (deduplicateResults true (rr ++ ar ++ mr)) :=
      mergeResults_map_fst stds ⟨rr, ar, some mr⟩
    have hmm : ((mergeResults defaultMergerOptions stds ⟨rr, ar, some mr⟩).map
        fun p => p.1.standard_id) =
        ((mergeResults defaultMergerOptions stds ⟨rr, ar, some mr⟩).map Prod.fst).map
          (·.standard_id) := by
      rw [List.map_map]
      rfl
    rw [hmm, hfst]
    have hpermids := (sortResults_perm (deduplicateResults true (rr ++ ar ++ mr))).map
      (·.standard_id)
    exact hpermids.nodup_iff.mpr (dedupRes_nodup _)

/-- Witness for C9 at one rule entry and one ai entry sharing id S3. -/
theorem c9_merge_refinement_witness :
    deduplicateResults true
        ([{ standard_id := "S3", source := .rule }] ++
          [{ standard_id := "S3", source := .ai }] ++ []) =
      firstDedup
        ([{ standard_id := "S3", source := .rule }] ++
          [{ standard_id := "S3", source := .ai }] ++ []) :=
  (c9_merge_refinement [{ standard_id := "S3", source := .rule }]
    [{ standard_id := "S3", source := .ai }] [] []
    (by decide) (by decide) (by decide)).2.1

/- ===================== Claims C8 and C10: groundwork ===================== -/

lemma takeWhile_cons_pos {α : Type} (p : α → Bool) (a : α) (l : List α) (h : p a = true) :
    (a :: l).takeWhile p = a :: l.takeWhile p := by
  simp [List.takeWhile_cons, h]

lemma takeWhile_cons_neg {α : Type} (p : α → Bool) (a : α) (l : List α) (h : p a = false) :
    (a :: l).takeWhile p = [] := by
  simp [List.takeWhile_cons, h]

lemma dropWhile_cons_pos {α : Type} (p : α → Bool) (a : α) (l : List α) (h : p a = true) :
    (a :: l).dropWhile p = l.dropWhile p := by
  simp [List.dropWhile_cons, h]

lemma dropWhile_cons_neg {α : Type} (p : α → Bool) (a : α) (l : List α) (h : p a = false) :
    (a :: l).dropWhile p = a :: l := by
  simp [List.dropWhile_cons, h]

lemma mem_takeWhile_pred {α : Type} (p : α → Bool) :
    ∀ (l : List α) (x : α), x ∈ l.takeWhile p → p x = true := by
  intro l
  induction l with
  | nil => intro x hx; simp at hx
  | cons a l ih =>
    intro x hx
    by_cases hp : p a = true
    · rw [takeWhile_cons_pos p a l hp] at hx
      rcases List.mem_cons.mp hx with rfl | hx
      · exact hp
      · exact ih x hx
    · rw [takeWhile_cons_neg p a l (by simpa using hp)] at hx
      simp at hx

lemma length_dropWhile_le' {α : Type} (p : α → Bool) :
    ∀ l : List α, (l.dropWhile p).length ≤ l.length := by
  intro l
  induction l with
  | nil => simp
  | cons a l ih =>
    by_cases hp : p a = true
    · rw [dropWhile_cons_pos p a l hp]
      exact le_trans ih (by simp)
    · rw [dropWhile_cons_neg p a l (by simpa using hp)]

lemma dropWhile_length_eq {α : Type} (p : α → Bool) :
    ∀ l : List α, (l.dropWhile p).length = l.length → l.dropWhile p = l := by
  intro l
  induction l with
  | nil => intro _; rfl
  | cons a l ih =>
    intro h
    by_cases hp : p a = true
    · rw [dropWhile_cons_pos p a l hp] at h ⊢
      have := length_dropWhile_le' p l
      simp at h
      omega
    · rw [dropWhile_cons_neg p a l (by simpa using hp)]

lemma dropWhile_nil_all {α : Type} (p : α → Bool) :
    ∀ l : List α, l.dropWhile p = [] → ∀ x ∈ l, p x = true := by
  intro l
  induction l with
  | nil => intro _ x hx; simp at hx
  | cons a l ih =>
    intro h x hx
    by_cases hp : p a = true
    · rw [dropWhile_cons_pos p a l hp] at h
      rcases List.mem_cons.mp hx with rfl | hx
      · exact hp
      · exact ih h x hx
    · rw [dropWhile_cons_neg p a l (by simpa using hp)] at h
      simp at h

lemma dropWhile_head_false {α : Type} (p : α → Bool) :
    ∀ (l : List α) (h : α) (t : List α), l.dropWhile p = h :: t → p h = false := by
  intro l
  induction l with
  | nil => intro h t hx; simp at hx
  | cons a l ih =>
    intro h t hx
    by_cases hp : p a = true
    · rw [dropWhile_cons_pos p a l hp] at hx
      exact ih h t hx
    · rw [dropWhile_cons_neg p a l (by simpa using hp)] at hx
      injection hx with h1 h2
      subst h1
      simpa using hp

lemma takeWhile_append_all {α : Type} (p : α → Bool) :
    ∀ (a rest : List α), (∀ c ∈ a, p c = true) →
      (a ++ rest).takeWhile p = a ++ rest.takeWhile p := by
  intro a
  induction a with
  | nil => intro rest _; simp
  | cons c cs ih =>
    intro rest h
    rw [List.cons_append, takeWhile_cons_pos p c _ (h c (by simp)), List.cons_append,
      ih rest (fun x hx => h x (by simp [hx]))]

lemma dropWhile_append_all {α : Type} (p : α → Bool) :
    ∀ (a rest : List α), (∀ c ∈ a, p c = true) →
      (a ++ rest).dropWhile p = rest.dropWhile p := by
  intro a
  induction a with
  | nil => intro rest _; simp
  | cons c cs ih =>
    intro rest h
    rw [List.cons_append, dropWhile_cons_pos p c _ (h c (by simp)),
      ih rest (fun x hx => h x (by simp [hx]))]

lemma getLast?_some_decomp {α : Type} :
    ∀ (l : List α) (w : α), l.getLast? = some w → ∃ init, l = init ++ [w] := by
  intro l
  induction l with
  | nil => intro w h; simp at h
  | cons a l ih =>
    intro w h
    cases l with
    | nil =>
      simp [List.getLast?] at h
      subst h
      exact ⟨[], rfl⟩
    | cons b t =>
      rw [List.getLast?_cons_cons] at h
      obtain ⟨init, hinit⟩ := ih w h
      exact ⟨a :: init, by rw [List.cons_append, ← hinit]⟩

lemma ws_not_id (c : Char) (h : isWsChar c = true) : isIdChar c = false := by
  have hc := h
  simp only [isWsChar, Char.isWhitespace, Bool.or_eq_true, decide_eq_true_eq] at hc
  rcases hc with ((rfl | rfl) | rfl) | rfl <;> decide

lemma colon_not_id : isIdChar ':' = false := by decide

lemma colon_not_ws : isWsChar ':' = false := by decide

lemma trimmed_last_not_ws (l init : List Char) (w : Char) (htrim : jsTrimChars l = l)
    (hsplit : l = init ++ [w]) : isWsChar w = false := by
  by_contra hw'
  have hw : isWsChar w = true := by simpa using hw'
  have hlen : (jsTrimChars l).length = l.length := by rw [htrim]
  unfold jsTrimChars at hlen
  rw [List.length_reverse] at hlen
  have le1 := length_dropWhile_le' isWsChar (l.dropWhile isWsChar).reverse
  rw [List.length_reverse] at le1
  have le2 := length_dropWhile_le' isWsChar l
  have hYlen : (l.dropWhile isWsChar).length = l.length := by omega
  have hY : l.dropWhile isWsChar = l := dropWhile_length_eq isWsChar l hYlen
  rw [hY] at hlen
  have hZ : l.reverse.dropWhile isWsChar = l.reverse :=
    dropWhile_length_eq isWsChar l.reverse (by rw [List.length_reverse]; exact hlen)
  have hrev : l.reverse = w :: init.reverse := by
    rw [hsplit]
    simp
  rw [hrev, dropWhile_cons_pos isWsChar w init.reverse hw] at hZ
  have := length_dropWhile_le' isWsChar init.reverse
  rw [hZ] at this
  simp at this

lemma parseLine_fst_shape (l a d : List Char) (h : parseLineChars l = some (a, d)) :
    a = l.takeWhile isIdChar ∧ a ≠ [] := by
  unfold parseLineChars at h
  by_cases hemp : (l.takeWhile isIdChar).isEmpty
  · rw [if_pos hemp] at h
    exact absurd h (by simp)
  · rw [if_neg hemp] at h
    have hne : l.takeWhile isIdChar ≠ [] := by simpa [List.isEmpty_iff] using hemp
    cases hm : (l.dropWhile isIdChar).dropWhile isWsChar with
    | nil =>
      rw [hm] at h
      exact absurd h (by simp [parseColon])
    | cons ch rest =>
      rw [hm] at h
      simp only [parseColon] at h
      by_cases hch : ch = ':'
      · rw [if_pos hch] at h
        unfold parseAfterColon at h
        by_cases hre : (rest.dropWhile isWsChar).isEmpty
        · rw [if_pos hre] at h
          cases hg : rest.getLast? with
          | none =>
            rw [hg] at h
            exact absurd h (by simp [parseBacktrack])
          | some chl =>
            rw [hg] at h
            simp only [parseBacktrack] at h
            have hpair := Option.some.inj h
            rw [Prod.mk.injEq] at hpair
            exact ⟨hpair.1.symm, hpair.1 ▸ hne⟩
        · rw [if_neg hre] at h
          have hpair := Option.some.inj h
          rw [Prod.mk.injEq] at hpair
          exact ⟨hpair.1.symm, hpair.1 ▸ hne⟩
      · rw [if_neg hch] at h
        exact absurd h (by simp)

lemma parseLine_sound (l a d : List Char) (htrim : jsTrimChars l = l)
    (h : parseLineChars l = some (a, d)) :
    ∃ b c, l = a ++ b ++ ':' :: (c ++ d) ∧ a ≠ [] ∧ (∀ ch ∈ a, isIdChar ch = true) ∧
      (∀ ch ∈ b, isWsChar ch = true) ∧ (∀ ch ∈ c, isWsChar ch = true) ∧ d ≠ [] ∧
      ∀ h0 t0, d = h0 :: t0 → isWsChar h0 = false := by
  unfold parseLineChars at h
  by_cases hemp : (l.takeWhile isIdChar).isEmpty
  · rw [if_pos hemp] at h
    exact absurd h (by simp)
  · rw [if_neg hemp] at h
    have hne : l.takeWhile isIdChar ≠ [] := by simpa [List.isEmpty_iff] using hemp
    cases hm : (l.dropWhile isIdChar).dropWhile isWsChar with
    | nil =>
      rw [hm] at h
      exact absurd h (by simp [parseColon])
    | cons ch rest =>
      rw [hm] at h
      simp only [parseColon] at h
      by_cases hch : ch = ':'
      swap
      · rw [if_neg hch] at h
        exact absurd h (by simp)
      subst hch
      rw [if_pos rfl] at h
      unfold parseAfterColon at h
      have hdecomp : l = l.takeWhile isIdChar ++ (l.dropWhile isIdChar).takeWhile isWsChar ++
          ':' :: rest := by
        conv_lhs => rw [← List.takeWhile_append_dropWhile isIdChar l]
        rw [List.append_assoc]
        congr 1
        conv_lhs => rw [← List.takeWhile_append_dropWhile isWsChar (l.dropWhile isIdChar)]
        rw [hm]
      by_cases hre : (rest.dropWhile isWsChar).isEmpty
      · rw [if_pos hre] at h
        cases hg : rest.getLast? with
        | none =>
          rw [hg] at h
          exact absurd h (by simp [parseBacktrack])
        | some chl =>
          obtain ⟨initr, hinitr⟩ := getLast?_some_decomp rest chl hg
          have hallws : ∀ x ∈ rest, isWsChar x = true :=
            dropWhile_nil_all isWsChar rest (by simpa [List.isEmpty_iff] using hre)
          have hwchl : isWsChar chl = true := hallws chl (by rw [hinitr]; simp)
          have hlast : l = (l.takeWhile isIdChar ++ (l.dropWhile isIdChar).takeWhile isWsChar ++
              (':' :: initr)) ++ [chl] := by
            conv_lhs => rw [hdecomp]
            rw [hinitr]
            simp [List.append_assoc]
          exact absurd (trimmed_last_not_ws l _ chl htrim hlast) (by simp [hwchl])
      · rw [if_neg hre] at h
        have hinj := Option.some.inj h
        rw [Prod.mk.injEq] at hinj
        have ha : l.takeWhile isIdChar = a := hinj.1
        have hd : rest.dropWhile isWsChar = d := hinj.2
        refine ⟨(l.dropWhile isIdChar).takeWhile isWsChar, rest.takeWhile isWsChar, ?_, ?_,
          ?_, ?_, ?_, ?_, ?_⟩
        · rw [← ha, ← hd]
          conv_lhs => rw [hdecomp]
          rw [List.takeWhile_append_dropWhile isWsChar rest]
        · rw [← ha]; exact hne
        · rw [← ha]; intro ch hch; exact mem_takeWhile_pred isIdChar l ch hch
        · intro ch hch; exact mem_takeWhile_pred isWsChar _ ch hch
        · intro ch hch; exact mem_takeWhile_pred isWsChar _ ch hch
        · rw [← hd]; simpa [List.isEmpty_iff] using hre
        · intro h0 t0 heq
          rw [← hd] at heq
          exact dropWhile_head_false isWsChar rest h0 t0 heq

lemma parseLine_complete (l a b c d : List Char)
    (hsplit : l = a ++ b ++ ':' :: (c ++ d)) (ha : a ≠ [])
    (haid : ∀ ch ∈ a, isIdChar ch = true) (hb : ∀ ch ∈ b, isWsChar ch = true)
    (hc : ∀ ch ∈ c, isWsChar ch = true) (hd : d ≠ [])
    (hdh : ∀ h0 t0, d = h0 :: t0 → isWsChar h0 = false) :
    parseLineChars l = some (a, d) := by
  obtain ⟨dh, dt, rfl⟩ : ∃ dh dt, d = dh :: dt := by
    cases d with
    | nil => exact absurd rfl hd
    | cons x xs => exact ⟨x, xs, rfl⟩
  have hdw : isWsChar dh = false := hdh dh dt rfl
  have htw : l.takeWhile isIdChar = a := by
    rw [hsplit, List.append_assoc, takeWhile_append_all isIdChar a _ haid]
    cases b with
    | nil =>
      rw [List.nil_append, takeWhile_cons_neg isIdChar ':' _ colon_not_id, List.append_nil]
    | cons bh bt =>
      rw [List.cons_append,
        takeWhile_cons_neg isIdChar bh _ (ws_not_id bh (hb bh (by simp))), List.append_nil]
  have hdw1 : l.dropWhile isIdChar = b ++ ':' :: (c ++ dh :: dt) := by
    rw [hsplit, List.append_assoc, dropWhile_append_all isIdChar a _ haid]
    cases b with
    | nil =>
      rw [List.nil_append, dropWhile_cons_neg isIdChar ':' _ colon_not_id]
    | cons bh bt =>
      rw [List.cons_append,
        dropWhile_cons_neg isIdChar bh _ (ws_not_id bh (hb bh (by simp)))]
  have hd2 : (l.dropWhile isIdChar).dropWhile isWsChar = ':' :: (c ++ dh :: dt) := by
    rw [hdw1, dropWhile_append_all isWsChar b _ hb,
      dropWhile_cons_neg isWsChar ':' _ colon_not_ws]
  have hd3 : (c ++ dh :: dt).dropWhile isWsChar = dh :: dt := by
    rw [dropWhile_append_all isWsChar c _ hc, dropWhile_cons_neg isWsChar dh _ hdw]
  unfold parseLineChars
  rw [htw, if_neg (by simpa [List.isEmpty_iff] using ha), hd2]
  show (if ':' = ':' then parseAfterColon a (c ++ dh :: dt) else none) = some (a, dh :: dt)
  rw [if_pos rfl]
  unfold parseAfterColon
  rw [hd3, if_neg (by simp)]

lemma mem_aiLineResults (stds : List StandardItem) (line : List Char) (res : MatchResult) :
    res ∈ aiLineResults stds line ↔
      (jsTrimChars line).isEmpty = false ∧
        ∃ a d, parseLineChars (jsTrimChars line) = some (a, d) ∧
          (stds.any fun s => s.standard_id == String.mk a) = true ∧
          res = { standard_id := String.mk a, source := .ai, rule_id := none,
                  reason := some (String.mk d) } := by
  unfold aiLineResults
  by_cases hemp : (jsTrimChars line).isEmpty
  · rw [if_pos hemp]
    simp [hemp]
  · rw [if_neg hemp]
    cases hp : parseLineChars (jsTrimChars line) with
    | none =>
      simp only [hp, aiCandidate]
      constructor
      · intro hx
        simp at hx
      · rintro ⟨-, a, d, hpq, -⟩
        simp at hpq
    | some pr =>
      obtain ⟨a, d⟩ := pr
      simp only [hp, aiCandidate]
      by_cases hany : (stds.any fun s => s.standard_id == String.mk a) = true
      · rw [if_pos hany]
        constructor
        · intro hx
          rw [List.mem_singleton] at hx
          exact ⟨by simpa using hemp, a, d, rfl, hany, hx⟩
        · rintro ⟨-, a', d', hpq, -, rfl⟩
          have hinj := Option.some.inj hpq
          rw [Prod.mk.injEq] at hinj
          rw [← hinj.1, ← hinj.2]
          exact List.mem_singleton.mpr rfl
      · rw [if_neg hany]
        constructor
        · intro hx
          simp at hx
        · rintro ⟨-, a', d', hpq, hany', rfl⟩
          have hinj := Option.some.inj hpq
          rw [Prod.mk.injEq] at hinj
          rw [← hinj.1] at hany'
          exact absurd hany' hany

lemma parseAIResponse_mem (resp : String) (stds : List StandardItem) (res : MatchResult) :
    res ∈ parseAIResponse resp stds ↔
      ∃ line ∈ splitChars '\n' resp.data, res ∈ aiLineResults stds line := by
  simp [parseAIResponse, List.mem_flatMap]

/- ===================== Claim C8 ===================== -/

/-- Claim C8: `parseAIResponse` splits the response into lines, accepts a
trimmed line exactly when it decomposes per the anchored pattern
`^([A-Z0-9\-]+)\s*:\s*(.+)$` with the captured id present in the catalog,
tags accepted candidates `source = ai` with the captured reason text, and
silently drops everything else; on the concrete three-line response with a
one-item catalog it returns exactly one result for QC-001. -/
theorem c8_parse_ai (resp : String) (stds : List StandardItem) :
    (∀ l a d : List Char, jsTrimChars l = l →
      (parseLineChars l = some (a, d) ↔
        ∃ b c, l = a ++ b ++ ':' :: (c ++ d) ∧ a ≠ [] ∧ (∀ ch ∈ a, isIdChar ch = true) ∧
          (∀ ch ∈ b, isWsChar ch = true) ∧ (∀ ch ∈ c, isWsChar ch = true) ∧ d ≠ [] ∧
          ∀ h0 t0, d = h0 :: t0 → isWsChar h0 = false)) ∧
    (∀ res, res ∈ parseAIResponse resp stds ↔
      ∃ line ∈ splitChars '\n' resp.data, (jsTrimChars line).isEmpty = false ∧
        ∃ a d, parseLineChars (jsTrimChars line) = some (a, d) ∧
          (stds.any fun s => s.standard_id == String.mk a) = true ∧
          res = { standard_id := String.mk a, source := .ai, rule_id := none,
                  reason := some (String.mk d) }) ∧
    parseAIResponse "QC-001: fits residential\nNOPE\nQC-999: unknown"
        [{ standard_id := "QC-001" }] =
      [{ standard_id := "QC-001", source := .ai, rule_id := none,
         reason := some "fits residential" }] := by
  refine ⟨?_, ?_, by decide⟩
  · intro l a d htrim
    constructor
    · exact parseLine_sound l a d htrim
    · rintro ⟨b, c, hsplit, ha, haid, hb, hc, hd, hdh⟩
      exact parseLine_complete l a b c d hsplit ha haid hb hc hd hdh
  · intro res
    rw [parseAIResponse_mem]
    constructor
    · rintro ⟨line, hline, hmem⟩
      exact ⟨line, hline, (mem_aiLineResults stds line res).mp hmem⟩
    · rintro ⟨line, hline, hrest⟩
      exact ⟨line, hline, (mem_aiLineResults stds line res).mpr hrest⟩

/-- Witness for C8: the pattern characterization applied to the concrete
trimmed line `AB-1: ok`. -/
theorem c8_parse_ai_witness :
    parseLineChars ("AB-1: ok".data) = some ("AB-1".data, "ok".data) :=
  ((c8_parse_ai "" []).1 ("AB-1: ok".data) ("AB-1".data) ("ok".data) (by decide)).mpr
    ⟨[], [' '], by decide, by decide, by decide, by decide, by decide, by decide,
      by intro h0 t0 heq; injection heq with h1 h2; subst h1; decide⟩

/- ===================== Claim C10 ===================== -/

/-- Claim C10: every `MatchResult` produced by `parseAIResponse` has a
nonempty standard id whose characters all lie in the pattern class
`[A-Z0-9\-]`, so a catalog item whose id contains any other character (for
example a lowercase letter) can never be recommended by the AI advisor. -/
theorem c10_id_charset (resp : String) (stds : List StandardItem) :
    ∀ res ∈ parseAIResponse resp stds,
      res.standard_id.data ≠ [] ∧ (∀ ch ∈ res.standard_id.data, isIdChar ch = true) ∧
        ∀ st ∈ stds, (∃ ch ∈ st.standard_id.data, isIdChar ch = false) →
          res.standard_id ≠ st.standard_id := by
  intro res hres
  obtain ⟨line, -, hmem⟩ := (parseAIResponse_mem resp stds res).mp hres
  obtain ⟨-, a, d, hp, -, rfl⟩ := (mem_aiLineResults stds line res).mp hmem
  obtain ⟨hshape, hne⟩ := parseLine_fst_shape (jsTrimChars line) a d hp
  have hdata : (String.mk a).data = a := rfl
  have hall : ∀ ch ∈ a, isIdChar ch = true := by
    intro ch hch
    rw [hshape] at hch
    exact mem_takeWhile_pred isIdChar (jsTrimChars line) ch hch
  refine ⟨by rw [hdata]; exact hne, by rw [hdata]; exact hall, ?_⟩
  rintro st hst ⟨ch, hch, hbad⟩ heq
  rw [← heq, hdata] at hch
  rw [hall ch hch] at hbad
  exact absurd hbad (by simp)

/-- Witness for C10: the id-character law extracted at the concrete response
`AB-2: yes` against a catalog containing AB-2. -/
theorem c10_id_charset_witness : isIdChar 'A' = true :=
  (c10_id_charset "AB-2: yes" [{ standard_id := "AB-2" }]
    (MatchResult.mk "AB-2" .ai none (some "yes")) (by decide)).2.1 'A' (by decide)

/- ===================== Claims C2 and C3: groundwork ===================== -/

lemma calculateSimilarity_eval (s1 s2 : List Char) (d m : Nat)
    (hd : levDist s1 s2 = d) (hm : max s1.length s2.length = m) (hm0 : m ≠ 0) :
    calculateSimilarity s1 s2 = 1 - (d : ℚ) / (m : ℚ) := by
  simp only [calculateSimilarity]
  rw [hm, hd, if_neg hm0]

lemma doesValueMatch_single_false (v f : String)
    (hinc : strIncludes (cfNormalize false v) (cfNormalize false f) = false)
    (hsim : ¬ (calculateSimilarity (cfNormalize false v).data (cfNormalize false f).data ≥
      (7 / 10 : ℚ))) :
    doesValueMatch defaultFilterOptions v [f] = false := by
  show ((strIncludes (cfNormalize false v) (cfNormalize false f) ||
      decide (calculateSimilarity (cfNormalize false v).data (cfNormalize false f).data ≥
        (7 / 10 : ℚ))) || false) = false
  rw [hinc, decide_eq_false hsim]
  rfl

lemma dvm_tongyong_shangye : doesValueMatch defaultFilterOptions "通用" ["商业"] = false := by
  refine doesValueMatch_single_false "通用" "商业" (by decide) ?_
  have he1 : cfNormalize false "通用" = "通用" := by decide
  have he2 : cfNormalize false "商业" = "商业" := by decide
  rw [he1, he2, calculateSimilarity_eval "通用".data "商业".data 2 2
    (by simp [levDist]) (by decide) (by norm_num)]
  norm_num

lemma dvm_zhuzhai_shangye : doesValueMatch defaultFilterOptions "住宅" ["商业"] = false := by
  refine doesValueMatch_single_false "住宅" "商业" (by decide) ?_
  have he1 : cfNormalize false "住宅" = "住宅" := by decide
  have he2 : cfNormalize false "商业" = "商业" := by decide
  rw [he1, he2, calculateSimilarity_eval "住宅".data "商业".data 2 2
    (by simp [levDist]) (by decide) (by norm_num)]
  norm_num

lemma dvm_zhuzhai_two : doesValueMatch defaultFilterOptions "住宅" ["商业", "住宅"] = true := by
  show ((strIncludes (cfNormalize false "住宅") (cfNormalize false "商业") ||
      decide (calculateSimilarity (cfNormalize false "住宅").data
        (cfNormalize false "商业").data ≥ (7 / 10 : ℚ))) ||
    ((strIncludes (cfNormalize false "住宅") (cfNormalize false "住宅") ||
      decide (calculateSimilarity (cfNormalize false "住宅").data
        (cfNormalize false "住宅").data ≥ (7 / 10 : ℚ))) || false)) = true
  rw [show strIncludes (cfNormalize false "住宅") (cfNormalize false "住宅") = true by decide]
  simp

lemma strIncludes_ne_empty (v u : String) (hu : u.data ≠ []) (h : strIncludes v u = true) :
    v.data ≠ [] := by
  intro hv
  unfold strIncludes at h
  rw [hv] at h
  cases hud : u.data with
  | nil => exact hu hud
  | cons x xs =>
    rw [hud] at h
    simp [charsContain, charsStartWith] at h

lemma universal_keywords_ne_empty : ∀ u ∈ universalKeywords, u.data ≠ [] := by decide

lemma cfRowPasses_none_none (opts : FilterOptions) (f : List String) (row : TsRow) :
    cfRowPasses opts none none f row = true := rfl

lemma cfRowPasses_some_none (opts : FilterOptions) (ki : String) (f : List String)
    (row : TsRow) :
    cfRowPasses opts (some ki) none f row =
      (((rowGet row ki == "") || doesValueMatch opts (rowGet row ki) f) && true) := rfl

lemma cfRowPasses_none_some (opts : FilterOptions) (kt : String) (f : List String)
    (row : TsRow) :
    cfRowPasses opts none (some kt) f row =
      (true && ((rowGet row kt == "") || doesValueMatch opts (rowGet row kt) f)) := rfl

lemma cfRowPasses_some_some (opts : FilterOptions) (ki kt : String) (f : List String)
    (row : TsRow) :
    cfRowPasses opts (some ki) (some kt) f row =
      ((((rowGet row ki == "") || doesValueMatch opts (rowGet row ki) f)) &&
        (((rowGet row kt == "") || doesValueMatch opts (rowGet row kt) f))) := rfl

lemma dedupContent_rep (rows : List TsRow) :
    ∀ (seen : List String) (r : TsRow), r ∈ rows → rowSig r ∉ seen →
      ∃ r' ∈ dedupContentGo seen rows, rowSig r' = rowSig r := by
  induction rows with
  | nil => intro seen r hr; simp at hr
  | cons x rest ih =>
    intro seen r hr hns
    rw [dedupContentGo_cons]
    by_cases hx : seen.contains (rowSig x) = true
    · rw [if_pos hx]
      rcases List.mem_cons.mp hr with rfl | hr
      · exact absurd ((contains_iff_mem _ _).mp hx) hns
      · exact ih seen r hr hns
    · rw [if_neg hx]
      by_cases hsig : rowSig x = rowSig r
      · exact ⟨x, List.mem_cons_self _ _, hsig⟩
      · rcases List.mem_cons.mp hr with rfl | hr
        · exact absurd rfl hsig
        · obtain ⟨r', hr', hsig'⟩ := ih (rowSig x :: seen) r hr
            (by
              intro hc
              rcases List.mem_cons.mp hc with hc | hc
              · exact hsig hc.symm
              · exact hns hc)
          exact ⟨r', List.mem_cons_of_mem _ hr', hsig'⟩

/- ===================== Claim C2 ===================== -/

/-- Counterexample to Claim C2 as stated of the engine `ContentFilter`: a row
whose located industry-like cell is the universal marker 通用 is dropped by
`filterContent` for a profile selecting 商业, because `doesValueMatch` has no
universal-marker handling; the cell does contain a universal keyword. -/
theorem c2_universal_counterexample :
    filterContent defaultFilterOptions [[("业态", "通用")]] ["业态"]
      { industries := ["商业"], projectTypes := [] } = [] ∧
    (∃ u ∈ universalKeywords, strIncludes (jsTrim "通用") u = true) := by
  refine ⟨?_, ⟨"通用", by decide, by decide⟩⟩
  have hic : findRelevantColumn defaultFilterOptions ["业态"] cfIndustryKeywords =
      some "业态" := by decide
  have htc : findRelevantColumn defaultFilterOptions ["业态"] cfTypeKeywords = none := by
    decide
  unfold filterContent
  rw [if_neg (by decide), hic, htc, if_neg (by decide)]
  have hpass : cfRowPasses defaultFilterOptions (some "业态") none (["商业"] ++ [])
      [("业态", "通用")] = false := by
    rw [cfRowPasses_some_none,
      show rowGet [("业态", "通用")] "业态" = "通用" from rfl,
      show (["商业"] ++ [] : List String) = ["商业"] from rfl,
      dvm_tongyong_shangye]
    rfl
  rw [filter_cons_neg (cfRowPasses defaultFilterOptions (some "业态") none (["商业"] ++ []))
    [("业态", "通用")] [] hpass]
  rfl

/-- Claim C2, amended: the universal-marker law holds of the inline
`filterSystemContent` of `Result.tsx` — a located cell containing a universal
keyword passes its axis, all-blank located cells pass, and a passing row is
retained up to content-signature dedup; the concrete 通用-row is retained for
a profile selecting 商业. The engine `ContentFilter` treats only blank
located cells as universal (rows whose located cells are all blank are
retained) and has no universal-marker handling. -/
theorem c2_universal_amended :
    filterSystemContent [[("业态", "通用")]] ["业态"]
        { industries := ["商业"], projectTypes := [] } = [[("业态", "通用")]] ∧
    (∀ (selected cols : List String) (row : TsRow),
      (∃ col ∈ cols, ∃ u ∈ universalKeywords,
        strIncludes (jsTrim (rowGet row col)) u = true) →
      rscAxisMatch selected cols row = true) ∧
    (∀ (selected cols : List String) (row : TsRow),
      (∀ col ∈ cols, jsTrim (rowGet row col) = "") →
      rscAxisMatch selected cols row = true) ∧
    (∀ (opts : FilterOptions) (content : List TsRow) (keys : List String)
        (input : ContentFilterInput) (row : TsRow), row ∈ content →
      (∀ k, findRelevantColumn opts keys cfIndustryKeywords = some k → rowGet row k = "") →
      (∀ k, findRelevantColumn opts keys cfTypeKeywords = some k → rowGet row k = "") →
      row ∈ filterContent opts content keys input) ∧
    (∀ (content : List TsRow) (keys : List String) (config : GenerationConfig)
        (row : TsRow), row ∈ content →
      rscAxisMatch config.industries (industryColsOf keys) row = true →
      rscAxisMatch config.projectTypes (typeColsOf keys) row = true →
      rscRequirementMatch config row = true →
      ∃ r' ∈ filterSystemContent content keys config, rowSig r' = rowSig row) := by
  refine ⟨by decide, ?_, ?_, ?_, ?_⟩
  · rintro selected cols row ⟨col, hcol, u, hu, hinc⟩
    unfold rscAxisMatch
    by_cases hcond : (selected.length > 0 && cols.length > 0) = true
    swap
    · rw [if_neg hcond]
    · rw [if_pos hcond]
      have hne : (jsTrim (rowGet row col)).data ≠ [] :=
        strIncludes_ne_empty _ u (universal_keywords_ne_empty u hu) hinc
      have hval : jsTrim (rowGet row col) ∈ cols.map fun c => jsTrim (rowGet row c) :=
        List.mem_map.mpr ⟨col, hcol, rfl⟩
      rw [if_pos (List.any_eq_true.mpr ⟨jsTrim (rowGet row col), hval,
        by simpa [List.isEmpty_iff] using hne⟩)]
      rw [if_pos (List.any_eq_true.mpr ⟨jsTrim (rowGet row col), hval,
        List.any_eq_true.mpr ⟨u, hu, hinc⟩⟩)]
  · intro selected cols row hblank
    unfold rscAxisMatch
    by_cases hcond : (selected.length > 0 && cols.length > 0) = true
    swap
    · rw [if_neg hcond]
    · have hnoval : ¬ ((cols.map fun c => jsTrim (rowGet row c)).any
          fun v => !v.data.isEmpty) = true := by
        rw [List.any_eq_true]
        rintro ⟨v, hv, hvne⟩
        obtain ⟨col, hcol, rfl⟩ := List.mem_map.mp hv
        rw [hblank col hcol] at hvne
        simp at hvne
      rw [if_pos hcond, if_neg hnoval]
  · intro opts content keys input row hrow h1 h2
    unfold filterContent
    by_cases hc1 : (input.industries.isEmpty && input.projectTypes.isEmpty) = true
    · rw [if_pos hc1]
      exact hrow
    rw [if_neg hc1]
    by_cases hc2 : ((findRelevantColumn opts keys cfIndustryKeywords).isNone &&
        (findRelevantColumn opts keys cfTypeKeywords).isNone) = true
    · rw [if_pos hc2]
      exact hrow
    rw [if_neg hc2]
    refine List.mem_filter.mpr ⟨hrow, ?_⟩
    cases hik : findRelevantColumn opts keys cfIndustryKeywords with
    | none =>
      cases htk : findRelevantColumn opts keys cfTypeKeywords with
      | none => exact cfRowPasses_none_none opts _ row
      | some kt =>
        rw [cfRowPasses_none_some, h2 kt htk]
        rfl
    | some ki =>
      cases htk : findRelevantColumn opts keys cfTypeKeywords with
      | none =>
        rw [cfRowPasses_some_none, h1 ki hik]
        rfl
      | some kt =>
        rw [cfRowPasses_some_some, h1 ki hik, h2 kt htk]
        rfl
  · intro content keys config row hrow hind htyp hreq
    unfold filterSystemContent
    by_cases hcond : (config.industries.isEmpty && config.projectTypes.isEmpty) = true
    · rw [if_pos hcond]
      exact dedupContent_rep content [] row hrow (by simp)
    · rw [if_neg hcond]
      refine dedupContent_rep _ [] row ?_ (by simp)
      refine List.mem_filter.mpr ⟨hrow, ?_⟩
      rw [hind, htyp, hreq]
      rfl

/-- Witness for C2 (amended): the universal-marker axis law applied at the
concrete 通用 cell against selection 商业. -/
theorem c2_universal_amended_witness :
    rscAxisMatch ["商业"] ["业态"] [("业态", "通用")] = true :=
  c2_universal_amended.2.1 ["商业"] ["业态"] [("业态", "通用")]
    ⟨"业态", by decide, "通用", by decide, by decide⟩

/- ===================== Claim C3 ===================== -/

/-- Counterexample to Claim C3 as stated: the engine `filterContent` tests
the located industry column against the combined filter list, so a row whose
industry cell 住宅 matches none of the selected industries (商业) is retained
merely because it matches a selected project type (住宅). -/
theorem c3_axis_counterexample :
    filterContent defaultFilterOptions [[("业态", "住宅")]] ["业态"]
      { industries := ["商业"], projectTypes := ["住宅"] } = [[("业态", "住宅")]] ∧
    doesValueMatch defaultFilterOptions "住宅" ["商业"] = false := by
  refine ⟨?_, dvm_zhuzhai_shangye⟩
  have hic : findRelevantColumn defaultFilterOptions ["业态"] cfIndustryKeywords =
      some "业态" := by decide
  have htc : findRelevantColumn defaultFilterOptions ["业态"] cfTypeKeywords = none := by
    decide
  unfold filterContent
  rw [if_neg (by decide), hic, htc, if_neg (by decide)]
  have hpass : cfRowPasses defaultFilterOptions (some "业态") none (["商业"] ++ ["住宅"])
      [("业态", "住宅")] = true := by
    rw [cfRowPasses_some_none,
      show rowGet [("业态", "住宅")] "业态" = "住宅" from rfl,
      show (["商业"] ++ ["住宅"] : List String) = ["商业", "住宅"] from rfl,
      dvm_zhuzhai_two]
    rfl
  rw [filter_cons_pos
    (cfRowPasses defaultFilterOptions (some "业态") none (["商业"] ++ ["住宅"]))
    [("业态", "住宅")] [] hpass]
  rfl

/-- Claim C3, amended: in the engine `filterContent` each located column —
industry-like and project-type-like alike — is tested against the combined
list of the profile's industries and project types; a row is retained exactly
when it is an input row and every located cell is blank or matches that
combined list. -/
theorem c3_axis_amended (opts : FilterOptions) (content : List TsRow)
    (keys : List String) (input : ContentFilterInput) (row : TsRow)
    (h1 : input.industries ≠ [] ∨ input.projectTypes ≠ [])
    (h2 : ¬ (findRelevantColumn opts keys cfIndustryKeywords = none ∧
      findRelevantColumn opts keys cfTypeKeywords = none)) :
    row ∈ filterContent opts content keys input ↔ row ∈ content ∧
      (∀ k, findRelevantColumn opts keys cfIndustryKeywords = some k →
        rowGet row k = "" ∨ doesValueMatch opts (rowGet row k)
          (input.industries ++ input.projectTypes) = true) ∧
      (∀ k, findRelevantColumn opts keys cfTypeKeywords = some k →
        rowGet row k = "" ∨ doesValueMatch opts (rowGet row k)
          (input.industries ++ input.projectTypes) = true) := by
  unfold filterContent
  rw [if_neg ?_]
  swap
  · rcases h1 with h1 | h1
    · simp [List.isEmpty_iff, h1]
    · simp [List.isEmpty_iff, h1]
  rw [if_neg ?_]
  swap
  · intro hc
    rw [Bool.and_eq_true, Option.isNone_iff_eq_none, Option.isNone_iff_eq_none] at hc
    exact h2 hc
  rw [List.mem_filter]
  cases hik : findRelevantColumn opts keys cfIndustryKeywords with
  | none =>
    cases htk : findRelevantColumn opts keys cfTypeKeywords with
    | none => exact absurd ⟨hik, htk⟩ h2
    | some kt =>
      rw [cfRowPasses_none_some]
      simp only [Bool.true_and, Bool.or_eq_true, beq_iff_eq]
      constructor
      · rintro ⟨hr, hp⟩
        refine ⟨hr, by simp, ?_⟩
        intro k hk
        injection hk with hk
        subst hk
        exact hp
      · rintro ⟨hr, -, hp⟩
        exact ⟨hr, hp kt rfl⟩
  | some ki =>
    cases htk : findRelevantColumn opts keys cfTypeKeywords with
    | none =>
      rw [cfRowPasses_some_none]
      simp only [Bool.and_true, Bool.or_eq_true, beq_iff_eq]
      constructor
      · rintro ⟨hr, hp⟩
        refine ⟨hr, ?_, by simp⟩
        intro k hk
        injection hk with hk
        subst hk
        exact hp
      · rintro ⟨hr, hp, -⟩
        exact ⟨hr, hp ki rfl⟩
    | some kt =>
      rw [cfRowPasses_some_some]
      simp only [Bool.and_eq_true, Bool.or_eq_true, beq_iff_eq]
      constructor
      · rintro ⟨hr, hpi, hpt⟩
        refine ⟨hr, ?_, ?_⟩
        · intro k hk
          injection hk with hk
          subst hk
          exact hpi
        · intro k hk
          injection hk with hk
          subst hk
          exact hpt
      · rintro ⟨hr, hpi, hpt⟩
        exact ⟨hr, hpi ki rfl, hpt kt rfl⟩

/-- Witness for C3 (amended): a blank-cell row is a member of the filtered
output for a profile with nonempty industries and a located industry column. -/
theorem c3_axis_amended_witness :
    [("业态", "")] ∈ filterContent defaultFilterOptions [[("业态", "")]] ["业态"]
      { industries := ["商业"], projectTypes := [] } :=
  (c3_axis_amended defaultFilterOptions [[("业态", "")]] ["业态"]
    { industries := ["商业"], projectTypes := [] } [("业态", "")]
    (Or.inl (by decide))
    (by
      rintro ⟨hA, -⟩
      rw [show findRelevantColumn defaultFilterOptions ["业态"] cfIndustryKeywords =
        some "业态" from by decide] at hA
      exact absurd hA (by simp))).mpr
    ⟨by simp, by
      intro k hk
      rw [show findRelevantColumn defaultFilterOptions ["业态"] cfIndustryKeywords =
        some "业态" from by decide] at hk
      injection hk with hk
      subst hk
      left
      decide, by
      intro k hk
      rw [show findRelevantColumn defaultFilterOptions ["业态"] cfTypeKeywords =
        none from by decide] at hk
      exact absurd hk (by simp)⟩
